import Mathlib

/-!
Verification of the FocusFrame gaze-tracking core against its specification.

The development shallowly embeds the JavaScript source
(`src/heatmap/eyeTracker.js`, `src/heatmap/gazeUtils.js` and the session
component) into Lean. JavaScript numbers are modelled by `ℚ` wherever the
source only performs field operations and comparisons; the one-euro filter,
whose step involves `Math.sqrt`, is modelled over `ℝ`. Numeric literals such
as `1e-12`, `0.2`, `0.08` are written as the corresponding rationals.
-/

namespace FocusFrame

/-- JavaScript `Math.round`: rounds half toward positive infinity. -/
def jround (q : ℚ) : ℤ := Int.floor (q + 1/2)

/-- A 2-D point with rational coordinates. -/
structure Pt where
  x : ℚ
  y : ℚ
deriving DecidableEq

/-- A DOM rectangle as used via `getBoundingClientRect()`. -/
structure Rect where
  left : ℚ
  top : ℚ
  width : ℚ
  height : ℚ
deriving DecidableEq

/-! ## Linear solver (`_solveLinearN` in eyeTracker.js)

The augmented matrix `[A | b]` is modelled as a function `ℕ → ℕ → ℚ`;
row `i`, column `j` for `i < N`, `j ≤ N` are meaningful, other indices are
junk that the algorithm never reads. -/

/-- Partial-pivot search of `_solveLinearN`: starting from `maxRow = col`,
scan rows `col+1 .. N-1` and keep the row with the largest `|M[row][col]|`
(the source keeps the earlier row on ties, matching the strict `>` test). -/
def findPivot (M : ℕ → ℕ → ℚ) (N col : ℕ) : ℕ :=
  (List.range' (col+1) (N - (col+1))).foldl
    (fun maxRow row => if |M maxRow col| < |M row col| then row else maxRow) col

/-- Swap rows `i` and `j` of the matrix (the destructuring swap in the source). -/
def swapRows (M : ℕ → ℕ → ℚ) (i j : ℕ) : ℕ → ℕ → ℚ :=
  fun r k => if r = i then M j k else if r = j then M i k else M r k

/-- One inner elimination step of `_solveLinearN`: subtract
`f = M[row][col] / M[col][col]` times the pivot row from row `row`,
for columns `col .. N` (the source computes `f` before the `k` loop, so the
factor uses the original `M[row][col]`). -/
def elimRow (M : ℕ → ℕ → ℚ) (col N row : ℕ) : ℕ → ℕ → ℚ :=
  fun r k =>
    if r = row ∧ col ≤ k ∧ k ≤ N then M r k - M row col / M col col * M col k
    else M r k

/-- The `for (row = col+1; row < N; row++)` elimination loop. -/
def elimBelow (M : ℕ → ℕ → ℚ) (col N : ℕ) : ℕ → ℕ → ℚ :=
  (List.range' (col+1) (N - (col+1))).foldl (fun M row => elimRow M col N row) M

/-- The outer column loop of `_solveLinearN`, structured on the remaining
column count `fuel = N - col`: pivot, check the `1e-12` singularity
threshold, eliminate below, move to the next column. Returns `none`
exactly when the source returns `null`. -/
def elimGo (N : ℕ) : ℕ → ℕ → (ℕ → ℕ → ℚ) → Option (ℕ → ℕ → ℚ)
  | 0, _, M => some M
  | fuel+1, col, M =>
      let M1 := swapRows M col (findPivot M N col)
      if |M1 col col| < 1/10^12 then none
      else elimGo N fuel (col + 1) (elimBelow M1 col N)

/-- The outer column loop of `_solveLinearN`, starting at column `col`. -/
def elimLoop (N : ℕ) (col : ℕ) (M : ℕ → ℕ → ℚ) : Option (ℕ → ℕ → ℚ) :=
  elimGo N (N - col) col M

/-- Dot product of a (row of a) matrix against a solution list, starting at
column `j`: models `Σ M[i][j] * x[j]` over the entries of the list. -/
def rowDot (row : ℕ → ℚ) : ℕ → List ℚ → ℚ
  | _, [] => 0
  | j, a :: t => row j * a + rowDot row (j+1) t

/-- Back substitution of `_solveLinearN`, structured on the remaining row
count `fuel = N - i`, producing `x[i]` for `i = N-1` down to `0`:
`x[i] = (M[i][N] - Σ_{j>i} M[i][j]·x[j]) / M[i][i]`.
`backGo M N fuel i` is the list `[x i, x (i+1), …, x (N-1)]`. -/
def backGo (M : ℕ → ℕ → ℚ) (N : ℕ) : ℕ → ℕ → List ℚ
  | 0, _ => []
  | fuel+1, i =>
      let xs := backGo M N fuel (i+1)
      (M i N - rowDot (M i) (i+1) xs) / M i i :: xs

/-- Back substitution from row `i` (the source runs it from `i = N-1`
down to `0`, i.e. `backSubstFrom M N 0`). -/
def backSubstFrom (M : ℕ → ℕ → ℚ) (N : ℕ) (i : ℕ) : List ℚ :=
  backGo M N (N - i) i

/-- Solve the `N×N` system `A·x = b` by Gaussian elimination with partial
pivoting, exactly as `_solveLinearN` does; `none` models the `null` returned
for a (near-)singular system. -/
def solveLinearN (A : ℕ → ℕ → ℚ) (b : ℕ → ℚ) (N : ℕ) : Option (List ℚ) :=
  match elimLoop N 0 (fun i j => if j = N then b i else A i j) with
  | none => none
  | some M => some (backSubstFrom M N 0)

/-! ## Quadratic calibration (eyeTracker.js) -/

/-- A fitted calibration model: one 6-element weight vector per screen axis
(`_calibData = { wx, wy }`). -/
structure CalibModel where
  wx : List ℚ
  wy : List ℚ
deriving DecidableEq

/-- One calibration observation: `{ iris: {x, y}, screen: {x, y} }`. -/
structure CalibPair where
  iris : Pt
  screen : Pt
deriving DecidableEq

/-- The 6-term quadratic feature row `[ix², iy², ix·iy, ix, iy, 1]`. -/
def phi (ix iy : ℚ) : List ℚ := [ix*ix, iy*iy, ix*iy, ix, iy, 1]

/-- Entry `(r, c)` of the normal-equations matrix `AᵗA` accumulated by
`fitCalibration` over all pairs: `Σ row[r]·row[c]`. -/
def AtA (pairs : List CalibPair) (r c : ℕ) : ℚ :=
  (pairs.map (fun p => (phi p.iris.x p.iris.y).getD r 0 *
     (phi p.iris.x p.iris.y).getD c 0)).sum

/-- Entry `r` of the right-hand side `Aᵗb_x`: `Σ row[r]·sx`. -/
def Atbx (pairs : List CalibPair) (r : ℕ) : ℚ :=
  (pairs.map (fun p => (phi p.iris.x p.iris.y).getD r 0 * p.screen.x)).sum

/-- Entry `r` of the right-hand side `Aᵗb_y`: `Σ row[r]·sy`. -/
def Atby (pairs : List CalibPair) (r : ℕ) : ℚ :=
  (pairs.map (fun p => (phi p.iris.x p.iris.y).getD r 0 * p.screen.y)).sum

/-- `fitCalibration` as a transformer of the module state `_calibData`.
The JavaScript function returns `undefined` on every path (early return for
fewer than 7 pairs, fall-through when a solve yields `null`, and after a
successful assignment alike), so its entire caller-observable behaviour is
the effect on `_calibData`, which this embedding returns. -/
def fitCalibration (pairs : List CalibPair) (calib : Option CalibModel) :
    Option CalibModel :=
  if pairs.length < 7 then calib
  else
    match solveLinearN (AtA pairs) (Atbx pairs) 6,
          solveLinearN (AtA pairs) (Atby pairs) 6 with
    | some wx, some wy => some ⟨wx, wy⟩
    | _, _ => calib

/-- The failure condition of `fitCalibration`: insufficient data, or a
singular normal-equations system on either axis. -/
def FitFails (pairs : List CalibPair) : Prop :=
  pairs.length < 7 ∨ solveLinearN (AtA pairs) (Atbx pairs) 6 = none ∨
    solveLinearN (AtA pairs) (Atby pairs) 6 = none

instance (pairs : List CalibPair) : Decidable (FitFails pairs) := by
  unfold FitFails; infer_instance

/-- Dot product of a weight list against a feature list
(the `for (i = 0; i < 6; i++)` accumulation in `irisToScreen`). -/
def dotL (w p : List ℚ) : ℚ := (List.zipWith (· * ·) w p).sum

/-- `irisToScreen`: evaluate the fitted polynomial and add the bias
`_bias`; `none` models the `null` returned when not yet calibrated. -/
def irisToScreen (calib : Option CalibModel) (bias : Pt) (ix iy : ℚ) :
    Option Pt :=
  match calib with
  | none => none
  | some c =>
      some ⟨dotL c.wx (phi ix iy) + bias.x, dotL c.wy (phi ix iy) + bias.y⟩

/-! ## Verification pass (handleVerifyClick in the session component) -/

/-- The five verification dots (fractional canvas coordinates). -/
def VERIFY_DOTS : List Pt :=
  [⟨1/2, 1/2⟩, ⟨8/100, 8/100⟩, ⟨92/100, 8/100⟩, ⟨8/100, 92/100⟩,
   ⟨92/100, 92/100⟩]

/-- The verification-pass state carried across clicks: the step counter
`verifyStepRef`, the residual accumulator `verifyResidualsRef`, and the
module bias `_bias`. -/
structure VerifyState where
  step : ℕ
  residuals : List Pt
  bias : Pt
deriving DecidableEq

/-- `buf.slice(-8)`: the last (at most) 8 samples of the iris buffer. -/
def lastN (l : List Pt) (n : ℕ) : List Pt := l.drop (l.length - n)

/-- The residual-recording part of `handleVerifyClick`: average the most
recent samples, map through the current model and bias, and append the
residual `actual − predicted` when a prediction exists. -/
def recordResidual (cr : Rect) (calib : Option CalibModel) (buf : List Pt)
    (s : VerifyState) : List Pt :=
  let dot := VERIFY_DOTS.getD s.step ⟨0, 0⟩
  let dotSx := cr.left + dot.x * cr.width
  let dotSy := cr.top + dot.y * cr.height
  let samples := lastN buf 8
  if 2 ≤ samples.length then
    let mix := (samples.map Pt.x).sum / samples.length
    let miy := (samples.map Pt.y).sum / samples.length
    match irisToScreen calib s.bias mix miy with
    | some pred => s.residuals ++ [⟨dotSx - pred.x, dotSy - pred.y⟩]
    | none => s.residuals
  else s.residuals

/-- One verification click (`handleVerifyClick`): record the residual,
advance the step, and on the final click set the bias to the mean residual
via `applyBiasCorrection` — unless no residuals were collected. -/
def handleVerifyClick (cr : Rect) (calib : Option CalibModel) (buf : List Pt)
    (s : VerifyState) : VerifyState :=
  let res1 := recordResidual cr calib buf s
  let next := s.step + 1
  if VERIFY_DOTS.length ≤ next then
    if res1 = [] then ⟨next, res1, s.bias⟩
    else
      ⟨next, res1,
        ⟨(res1.map Pt.x).sum / res1.length, (res1.map Pt.y).sum / res1.length⟩⟩
  else ⟨next, res1, s.bias⟩

/-- A whole verification pass: one click per buffer snapshot, starting from
step 0 with an empty residual accumulator and the pre-pass bias `b0`
(the pass is entered with `verifyStepRef = 0` and `verifyResidualsRef = []`). -/
def verifyPass (cr : Rect) (calib : Option CalibModel) (bufs : List (List Pt))
    (b0 : Pt) : VerifyState :=
  bufs.foldl (fun s buf => handleVerifyClick cr calib buf s) ⟨0, [], b0⟩

/-! ## Recalibration (handleRecalibrate) -/

/-- The mutable tracker/session state touched by `handleRecalibrate`:
the module singletons `_calibData` and `_bias` of eyeTracker.js plus the
component refs it clears. -/
structure SessionState where
  calib : Option CalibModel
  bias : Pt
  oneEuroActive : Bool
  prevIris : Option Pt
  irisBuffer : List Pt
  pairs : List CalibPair
  calibrated : Bool
deriving DecidableEq

/-- `handleRecalibrate`: clears `calibratedRef`, tears the tracker down
(`stopEyeTracker` sets `_calibData = null` and `_bias = {0,0}`), calls
`resetCalibration` (which does the same), and clears the filter, the
previous-iris memory, the iris buffer and the pair accumulator. -/
def handleRecalibrate (_s : SessionState) : SessionState :=
  ⟨none, ⟨0, 0⟩, false, none, [], [], false⟩

/-! ## Gaze points and the tracking callback (handleStartSession) -/

/-- A recorded gaze observation
`{ timestamp, wallTime, x, y, frame }`. Coordinates are stored rounded by
the recording code, but the aggregation functions accept any numbers, so the
fields are kept rational. -/
structure GazePoint where
  timestamp : ℚ
  wallTime : ℚ
  x : ℚ
  y : ℚ
  frame : ℤ
deriving DecidableEq

/-- Squared Euclidean distance between two iris samples. The source
computes `Math.sqrt(d2) > 0.2`; over nonnegative numbers this is equivalent
to `d2 > 0.04 = 1/25`, which keeps the embedding rational. -/
def dist2 (a b : Pt) : ℚ := (a.x - b.x)^2 + (a.y - b.y)^2

/-- The exact value of the IEEE-754 double `Math.PI`. -/
noncomputable def mathPI : ℝ := 884279719003555 / 281474976710656

/-- One-euro filter state `oneEuroRef.current = { x, dx, y, dy, t }`. -/
structure OneEuroState where
  x : ℝ
  dx : ℝ
  y : ℝ
  dy : ℝ
  t : ℝ

/-- One step of the 1€ filter exactly as inlined in the iris callback:
constants `MIN_FC = 0.5`, `BETA = 0.08`, `D_FC = 1.0`; on the first sample
the output is the raw input with zero velocity. Returns the smoothed point
and the new filter state. -/
noncomputable def oneEuroApply (prev : Option OneEuroState)
    (rawCx rawCy nowS : ℝ) : (ℝ × ℝ) × OneEuroState :=
  match prev with
  | none => ((rawCx, rawCy), ⟨rawCx, 0, rawCy, 0, nowS⟩)
  | some p =>
      let dt := max (nowS - p.t) (1/10000)
      let ad := 1 / (1 + 1 / (2 * mathPI * 1 * dt))
      let dxRaw := (rawCx - p.x) / dt
      let dyRaw := (rawCy - p.y) / dt
      let dx := ad * dxRaw + (1 - ad) * p.dx
      let dy := ad * dyRaw + (1 - ad) * p.dy
      let speed := Real.sqrt (dx * dx + dy * dy)
      let fc := 1/2 + 8/100 * speed
      let a := 1 / (1 + 1 / (2 * mathPI * fc * dt))
      let fx := a * rawCx + (1 - a) * p.x
      let fy := a * rawCy + (1 - a) * p.y
      ((fx, fy), ⟨fx, dx, fy, dy, nowS⟩)

/-- The per-frame state mutated by the iris callback in
`handleStartSession`. -/
structure TrackState where
  prevIris : Option Pt
  irisBuffer : List Pt
  pairs : List CalibPair
  calib : Option CalibModel
  bias : Pt
  oneEuro : Option OneEuroState
  cursor : Option (ℤ × ℤ)
  liveGaze : List GazePoint

/-- The per-frame environment the callback reads: the calibration-animation
flag and rects, the wall clock `performance.now()/1000`, and the current
video/recording times used when a gaze point is recorded. -/
structure TrackEnv where
  calibAnimRunning : Bool
  calibRect : Option Rect
  calibDot : Pt
  canvasRect : Option Rect
  nowS : ℝ
  videoTime : ℚ
  wallTime : ℚ

/-- JavaScript `Math.round` on a real number. -/
noncomputable def jroundR (x : ℝ) : ℤ := Int.floor (x + 1/2)

/-- Everything the iris callback does after the jump-rejection guard has
accepted a sample: push into the (20-deep) iris buffer, record a
calibration pair while the dot animates, map through `irisToScreen`, run
the 1€ filter, update the cursor, and record a gaze point when the smoothed
position lies inside the 640×360 video space. -/
noncomputable def afterGuard (env : TrackEnv) (s : TrackState) (i : Pt) :
    TrackState :=
  let buf0 := s.irisBuffer ++ [i]
  let buf := if 20 < buf0.length then buf0.tail else buf0
  let pairs :=
    if env.calibAnimRunning then
      match env.calibRect with
      | some cr =>
          s.pairs ++ [⟨i, ⟨cr.left + env.calibDot.x * cr.width,
            cr.top + env.calibDot.y * cr.height⟩⟩]
      | none => s.pairs
    else s.pairs
  let s1 := { s with irisBuffer := buf, pairs := pairs }
  match irisToScreen s.calib s.bias i.x i.y with
  | none => s1
  | some sp =>
      match env.canvasRect with
      | none => s1
      | some rect =>
          let rawCx : ℚ := (sp.x - rect.left) * (640 / rect.width)
          let rawCy : ℚ := (sp.y - rect.top) * (360 / rect.height)
          let r := oneEuroApply s.oneEuro (rawCx : ℝ) (rawCy : ℝ) env.nowS
          let sc := r.1
          let live :=
            if 0 ≤ sc.1 ∧ sc.1 < 640 ∧ 0 ≤ sc.2 ∧ sc.2 < 360 then
              s1.liveGaze ++ [⟨env.videoTime, env.wallTime,
                (jroundR sc.1 : ℚ), (jroundR sc.2 : ℚ),
                jround (env.videoTime * 30)⟩]
            else s1.liveGaze
          { s1 with oneEuro := some r.2,
                    cursor := some (jroundR sc.1, jroundR sc.2),
                    liveGaze := live }

/-- The iris callback of `handleStartSession`: jump rejection first — a
sample farther than 0.2 (in normalized space) from the stored previous
sample replaces that memory and nothing else happens — then the downstream
pipeline. -/
noncomputable def trackCallback (env : TrackEnv) (s : TrackState) (i : Pt) :
    TrackState :=
  match s.prevIris with
  | some prev =>
      if 1/25 < dist2 i prev then { s with prevIris := some i }
      else afterGuard env { s with prevIris := some i } i
  | none => afterGuard env { s with prevIris := some i } i

/-! ## Heatmap (computeHeatmapForFrame in gazeUtils.js)

The Gaussian splat value `Math.exp(-d2 / (2 * (radius/2)**2))` is
transcendental, so the kernel is abstracted as a parameter
`kernel : ℤ → ℚ` taking the squared offset distance `d2`; every theorem
assumes only the positivity that `Math.exp` guarantees, so the results
cover the source's kernel. -/

/-- The window test `pt.timestamp >= tMin && pt.timestamp <= tMax` with
`tMin/tMax = currentTime ∓ windowSec/2`. -/
def inWindow (currentTime windowSec : ℚ) (p : GazePoint) : Bool :=
  decide (currentTime - windowSec/2 ≤ p.timestamp) &&
    decide (p.timestamp ≤ currentTime + windowSec/2)

/-- The splat offsets `dy, dx ∈ [-radius, radius]` with `radius = 4`. -/
def splatOffsets : List ℤ := (List.range 9).map (fun k => (k : ℤ) - 4)

/-- Splat one kernel row/column pass for a single accepted point whose cell
is `(gx, gy)`: the nested `dy`/`dx` loops with bounds checks. -/
def splatPoint (kernel : ℤ → ℚ) (w h : ℕ) (gx gy : ℤ)
    (grid : ℕ → ℚ) : ℕ → ℚ :=
  splatOffsets.foldl (fun g dy =>
    splatOffsets.foldl (fun g dx =>
      let nx := gx + dx
      let ny := gy + dy
      if 0 ≤ nx ∧ nx < (w : ℤ) ∧ 0 ≤ ny ∧ ny < (h : ℤ) then
        let idx := (ny * w + nx).toNat
        Function.update g idx (g idx + kernel (dx*dx + dy*dy))
      else g) g) grid

/-- The accumulation phase of `computeHeatmapForFrame`: for each point in
the window whose cell lies inside the grid, splat the kernel. -/
def heatAccum (kernel : ℤ → ℚ) (pts : List GazePoint)
    (currentTime windowSec : ℚ) (res w h : ℕ) : ℕ → ℚ :=
  pts.foldl (fun grid p =>
    if inWindow currentTime windowSec p then
      let gx := Int.floor (p.x / res)
      let gy := Int.floor (p.y / res)
      if 0 ≤ gx ∧ gx < (w : ℤ) ∧ 0 ≤ gy ∧ gy < (h : ℤ) then
        splatPoint kernel w h gx gy grid
      else grid
    else grid) (fun _ => 0)

/-- The `max` scan over the grid (`if (grid[i] > max) max = grid[i]`,
starting from `0`). -/
def gridMax (n : ℕ) (grid : ℕ → ℚ) : ℚ :=
  (List.range n).foldl (fun m i => if m < grid i then grid i else m) 0

/-- Result record of `computeHeatmapForFrame` (the `count` field and the
returned dimensions are irrelevant to the claims and omitted). -/
structure HeatmapResult where
  grid : ℕ → ℚ
  w : ℕ
  h : ℕ

/-- `computeHeatmapForFrame`: grid dimensions `ceil(width/resolution)`,
kernel accumulation over the window, then normalization by the grid's own
maximum — skipped entirely when the maximum is `0`. -/
def computeHeatmapForFrame (kernel : ℤ → ℚ) (pts : List GazePoint)
    (currentTime windowSec : ℚ) (width height res : ℕ) : HeatmapResult :=
  let w := (width + res - 1) / res
  let h := (height + res - 1) / res
  let grid := heatAccum kernel pts currentTime windowSec res w h
  let m := gridMax (w * h) grid
  ⟨if 0 < m then fun i => grid i / m else grid, w, h⟩

/-! ## Region attention (computeRegionAttention in gazeUtils.js) -/

/-- One output cell of `computeRegionAttention` (the presentational
`label`/`short` strings are omitted). -/
structure Region where
  attention : ℚ
  row : ℕ
  col : ℕ
deriving DecidableEq

/-- The (possibly out-of-range) cell index
`gy * gridSize + gx` with `g· = min(gridSize - 1, floor(coord / cell·))`.
A negative coordinate yields a negative `gx`/`gy`, exactly like the
JavaScript index arithmetic. -/
def regionIdx (width height : ℚ) (gridSize : ℕ) (p : GazePoint) : ℤ :=
  let gx := min ((gridSize : ℤ) - 1) (Int.floor (p.x / (width / gridSize)))
  let gy := min ((gridSize : ℤ) - 1) (Int.floor (p.y / (height / gridSize)))
  gy * gridSize + gx

/-- The counting loop of `computeRegionAttention`: `counts` is the array
(indexed over `ℤ`, since the JavaScript `counts[idx]++` accepts any index —
an out-of-range index creates a plain property that the later `counts.map`
never sees) together with `total`. -/
def regionCounts (pts : List GazePoint) (currentTime windowSec : ℚ)
    (width height : ℚ) (gridSize : ℕ) : (ℤ → ℕ) × ℕ :=
  pts.foldl (fun ct p =>
    if inWindow currentTime windowSec p then
      let idx := regionIdx width height gridSize p
      (Function.update ct.1 idx (ct.1 idx + 1), ct.2 + 1)
    else ct) (fun _ => 0, 0)

/-- The mapping step of `computeRegionAttention`, before sorting: cell `i`
gets attention `count/total × 100`, or `0` when `total = 0`. -/
def regionCells (pts : List GazePoint) (currentTime windowSec : ℚ)
    (width height : ℚ) (gridSize : ℕ) : List Region :=
  let ct := regionCounts pts currentTime windowSec width height gridSize
  (List.range (gridSize * gridSize)).map (fun (i : ℕ) =>
    ⟨if 0 < ct.2 then ((ct.1 (i : ℤ) : ℚ) / ct.2) * 100 else 0,
     i / gridSize, i % gridSize⟩)

/-- `computeRegionAttention`: the cells sorted by descending attention
(the JavaScript numeric comparator `b.attention - a.attention`). -/
def computeRegionAttention (pts : List GazePoint)
    (currentTime windowSec : ℚ) (width height : ℚ) (gridSize : ℕ) :
    List Region :=
  (regionCells pts currentTime windowSec width height gridSize).mergeSort
    (fun a b => decide (b.attention ≤ a.attention))

/-! ## Timelines -/

/-- One timeline bucket `{ time, intensity }`. -/
structure Bucket where
  time : ℚ
  intensity : ℤ
deriving DecidableEq

/-- Raw count of a bucket of `computeAttentionTimeline`:
points with `t ≤ timestamp < t + bucketSec` for `t = k·bucketSec`. -/
def ctBucketCount (pts : List GazePoint) (bucketSec : ℚ) (k : ℕ) : ℕ :=
  (pts.filter (fun p => decide ((k : ℚ) * bucketSec ≤ p.timestamp) &&
    decide (p.timestamp < (k : ℚ) * bucketSec + bucketSec))).length

/-- `computeAttentionTimeline` (gazeUtils.js): buckets for
`t = 0, bucketSec, …` while `t < duration` (so `⌈duration/bucketSec⌉`
buckets), then each count is normalized by the **maximum** bucket count
(floored at 1 by the `Math.max(…, 1)`) and scaled to 0–100. -/
def computeAttentionTimeline (pts : List GazePoint) (duration : ℚ)
    (bucketSec : ℚ) : List Bucket :=
  let n := if 0 < duration ∧ 0 < bucketSec then
    (Int.ceil (duration / bucketSec)).toNat else 0
  let raw := (List.range n).map (fun (k : ℕ) =>
    (((jround ((k : ℚ) * bucketSec * 10) : ℚ)) / 10, ctBucketCount pts bucketSec k))
  let m := raw.foldl (fun acc x => max acc x.2) 1
  raw.map (fun x => ⟨x.1, jround (((x.2 : ℚ) / m) * 100)⟩)

/-- Raw count of a wall-time bucket: points with
`k·0.5 ≤ wallTime < k·0.5 + 0.5`. -/
def wallBucketCount (pts : List GazePoint) (k : ℕ) : ℕ :=
  (pts.filter (fun p => decide ((k : ℚ) * (1/2) ≤ p.wallTime) &&
    decide (p.wallTime < (k : ℚ) * (1/2) + 1/2))).length

/-- The wall-time timeline used in the recording view and the report page:
buckets for `t = 0, 0.5, …` while `t ≤ maxT` (`maxT` the largest recorded
`wallTime`), each with intensity
`min(100, round(count / (EXPECTED_GAZE_HZ · BUCKET_SEC) · 100))` with
`EXPECTED_GAZE_HZ = 12` and `BUCKET_SEC = 0.5`; an empty point list yields
an empty timeline. -/
def timelineWall (pts : List GazePoint) : List Bucket :=
  match pts with
  | [] => []
  | p :: rest =>
      let maxT := (rest.map GazePoint.wallTime).foldl max p.wallTime
      let n := if 0 ≤ maxT then (Int.floor (maxT / (1/2))).toNat + 1 else 0
      (List.range n).map (fun (k : ℕ) =>
        ⟨(k : ℚ) * (1/2),
         min 100 (jround (((wallBucketCount pts k : ℚ) / (12 * (1/2))) * 100))⟩)

/-! ## Helper lemmas -/

/-- Any failing fit (insufficient data or a singular axis) leaves the
stored model exactly as it was. -/
theorem fitCalibration_of_fails {pairs : List CalibPair}
    {prev : Option CalibModel} (h : FitFails pairs) :
    fitCalibration pairs prev = prev := by
  unfold fitCalibration
  by_cases hl : pairs.length < 7
  · simp [hl]
  · rcases h with h | h | h
    · exact absurd h hl
    · rcases hy : solveLinearN (AtA pairs) (Atby pairs) 6 with _ | wy <;>
        simp [hl, h, hy]
    · rcases hx : solveLinearN (AtA pairs) (Atbx pairs) 6 with _ | wx <;>
        simp [hl, h, hx]

/-- Unfolding lemma for one elimination column with a small pivot. -/
theorem elimGo_succ_none {N fuel col : ℕ} {M : ℕ → ℕ → ℚ}
    (h : |swapRows M col (findPivot M N col) col col| < 1/10^12) :
    elimGo N (fuel+1) col M = none := by
  simp only [elimGo, if_pos h]

/-- Unfolding lemma for one elimination column with an acceptable pivot. -/
theorem elimGo_succ_step {N fuel col : ℕ} {M : ℕ → ℕ → ℚ}
    (h : ¬ |swapRows M col (findPivot M N col) col col| < 1/10^12) :
    elimGo N (fuel+1) col M =
      elimGo N fuel (col+1)
        (elimBelow (swapRows M col (findPivot M N col)) col N) := by
  simp only [elimGo, if_neg h]

/-- The row-elimination fold, characterized pointwise: a row in the worked
list gets the single update the source applies to it, every other entry is
untouched. `col` must not be in the list and the list must not repeat rows. -/
theorem foldl_elimRow_apply (col N : ℕ) (l : List ℕ) (hcol : col ∉ l)
    (hnd : l.Nodup) (M : ℕ → ℕ → ℚ) (r k : ℕ) :
    (l.foldl (fun M row => elimRow M col N row) M) r k =
      if r ∈ l ∧ col ≤ k ∧ k ≤ N then
        M r k - M r col / M col col * M col k
      else M r k := by
  induction l generalizing M with
  | nil => simp
  | cons a t ih =>
      have hac : a ≠ col := fun h => hcol (h ▸ List.mem_cons_self a t)
      have hct : col ∉ t := fun h => hcol (List.mem_cons_of_mem a h)
      have hat : a ∉ t := (List.nodup_cons.mp hnd).1
      rw [List.foldl_cons, ih hct (List.nodup_cons.mp hnd).2]
      by_cases hrt : r ∈ t
      · have hra : r ≠ a := fun h => hat (h ▸ hrt)
        have h1 : ∀ k, elimRow M col N a r k = M r k := by
          intro k; simp [elimRow, hra]
        have h2 : ∀ k, elimRow M col N a col k = M col k := by
          intro k; simp [elimRow, (Ne.symm hac)]
        simp only [h1, h2, hrt, List.mem_cons, hrt, or_true, true_and]
      · by_cases hra : r = a
        · subst hra
          simp only [hrt, false_and, ite_false, List.mem_cons, true_or,
            true_and]
          simp [elimRow]
        · have h1 : ∀ k, elimRow M col N a r k = M r k := by
            intro k; simp [elimRow, hra]
          simp only [h1, List.mem_cons, hrt, or_false, hra, false_and,
            ite_false]

/-- `elimBelow` pointwise: rows strictly between `col` and `N` get the
elimination update on columns `col..N`; everything else is untouched. -/
theorem elimBelow_apply (M : ℕ → ℕ → ℚ) (col N r k : ℕ) :
    elimBelow M col N r k =
      if col < r ∧ r < N ∧ col ≤ k ∧ k ≤ N then
        M r k - M r col / M col col * M col k
      else M r k := by
  unfold elimBelow
  rw [foldl_elimRow_apply col N _ (by
      intro h
      have := List.mem_range'_1.mp h
      omega)
    (List.nodup_range' _ _)]
  have hmem : r ∈ List.range' (col+1) (N - (col+1)) ↔ (col < r ∧ r < N) := by
    rw [List.mem_range'_1]; omega
  by_cases hr : col < r ∧ r < N
  · simp [hmem.mpr hr, hr, and_assoc]
  · have : r ∉ List.range' (col+1) (N - (col+1)) := fun h => hr (hmem.mp h)
    simp only [this, false_and, ite_false]
    rw [if_neg (fun h => hr ⟨h.1, h.2.1⟩)]

/-- The pivot search stays in the active row range `[col, N)`. -/
theorem findPivot_mem (M : ℕ → ℕ → ℚ) {N col : ℕ} (h : col < N) :
    col ≤ findPivot M N col ∧ findPivot M N col < N := by
  unfold findPivot
  have : ∀ (l : List ℕ) (acc : ℕ), (∀ x ∈ l, col ≤ x ∧ x < N) → col ≤ acc → acc < N →
      col ≤ (List.foldl
        (fun maxRow row => if |M maxRow col| < |M row col| then row else maxRow)
          acc l) ∧
      (List.foldl
        (fun maxRow row => if |M maxRow col| < |M row col| then row else maxRow)
          acc l) < N := by
    intro l
    induction l with
    | nil => intro acc _ h1 h2; exact ⟨h1, h2⟩
    | cons a t ih =>
        intro acc hl h1 h2
        rw [List.foldl_cons]
        by_cases hc : |M acc col| < |M a col| <;> simp only [hc, if_pos, if_neg,
          ite_true, ite_false]
        · exact ih _ (fun x hx => hl x (List.mem_cons_of_mem a hx))
            (hl a (List.mem_cons_self a t)).1 (hl a (List.mem_cons_self a t)).2
        · exact ih _ (fun x hx => hl x (List.mem_cons_of_mem a hx)) h1 h2
  refine this _ col ?_ le_rfl h
  intro x hx
  have := List.mem_range'_1.mp hx
  omega

/-- The pivot search finds a row of maximal absolute entry in the active
column among rows `col..N-1` (partial pivoting). -/
theorem findPivot_max (M : ℕ → ℕ → ℚ) (N col : ℕ) {r : ℕ}
    (h1 : col ≤ r) (h2 : r < N) :
    |M r col| ≤ |M (findPivot M N col) col| := by
  unfold findPivot
  have main : ∀ (l : List ℕ) (acc : ℕ),
      |M acc col| ≤ |M (List.foldl
        (fun maxRow row => if |M maxRow col| < |M row col| then row else maxRow)
          acc l) col| ∧
      ∀ x ∈ l, |M x col| ≤ |M (List.foldl
        (fun maxRow row => if |M maxRow col| < |M row col| then row else maxRow)
          acc l) col| := by
    intro l
    induction l with
    | nil => intro acc; exact ⟨le_rfl, by simp⟩
    | cons a t ih =>
        intro acc
        rw [List.foldl_cons]
        by_cases hc : |M acc col| < |M a col| <;>
          simp only [hc, ite_true, ite_false]
        · refine ⟨le_trans hc.le (ih a).1, ?_⟩
          intro x hx
          rcases List.mem_cons.mp hx with hx | hx
          · exact hx ▸ (ih a).1
          · exact (ih a).2 x hx
        · refine ⟨(ih acc).1, ?_⟩
          intro x hx
          rcases List.mem_cons.mp hx with hx | hx
          · exact hx ▸ le_trans (not_lt.mp hc) (ih acc).1
          · exact (ih acc).2 x hx
  rcases Nat.eq_or_lt_of_le h1 with hr | hr
  · exact hr ▸ (main _ col).1
  · refine (main _ col).2 r ?_
    rw [List.mem_range'_1]
    omega

/-- `satA N M xs`: the list `xs` satisfies every row constraint of the
augmented matrix `M` (first `N` columns against `xs`, last column the
right-hand side). -/
def satA (N : ℕ) (M : ℕ → ℕ → ℚ) (xs : List ℚ) : Prop :=
  ∀ i < N, (∑ j ∈ Finset.range N, M i j * xs.getD j 0) = M i N

/-- Swapping two rows inside the active range does not change the
constraint set. -/
theorem satA_swap {N : ℕ} {M : ℕ → ℕ → ℚ} {xs : List ℚ} {a b : ℕ}
    (ha : a < N) (hb : b < N) :
    satA N (swapRows M a b) xs ↔ satA N M xs := by
  have key : ∀ (P Q : ℕ → ℕ → ℚ), (∀ i < N, ∃ i' < N, ∀ j, P i j = Q i' j) →
      satA N Q xs → satA N P xs := by
    intro P Q h hQ i hi
    obtain ⟨i', hi', hrow⟩ := h i hi
    simp only [hrow]
    exact hQ i' hi'
  constructor
  · refine key M (swapRows M a b) ?_
    intro i hi
    by_cases hia : i = a
    · refine ⟨b, hb, fun j => ?_⟩
      simp only [swapRows, hia]
      split_ifs <;> simp_all
    · by_cases hib : i = b
      · refine ⟨a, ha, fun j => ?_⟩
        simp only [swapRows, hib]
        split_ifs <;> simp_all
      · refine ⟨i, hi, fun j => ?_⟩
        simp only [swapRows]
        split_ifs <;> simp_all
  · refine key (swapRows M a b) M ?_
    intro i hi
    by_cases hia : i = a
    · refine ⟨b, hb, fun j => ?_⟩
      simp only [swapRows, hia]
      split_ifs <;> simp_all
    · by_cases hib : i = b
      · refine ⟨a, ha, fun j => ?_⟩
        simp only [swapRows, hib]
        split_ifs <;> simp_all
      · refine ⟨i, hi, fun j => ?_⟩
        simp only [swapRows]
        split_ifs <;> simp_all

/-- One row elimination preserves the solution set, both ways, provided the
pivot row has zeros left of the pivot column. -/
theorem satA_elimRow {N col row : ℕ} {M : ℕ → ℕ → ℚ} {xs : List ℚ}
    (hrow : row < N) (hcol : col < N) (hne : col ≠ row)
    (hzero : ∀ j < col, M col j = 0) :
    satA N (elimRow M col N row) xs ↔ satA N M xs := by
  have hrowcol : ∀ k, elimRow M col N row col k = M col k := by
    intro k; simp [elimRow, hne]
  have hother : ∀ i, i ≠ row → ∀ k, elimRow M col N row i k = M i k := by
    intro i hi k; simp [elimRow, hi]
  -- the elimination subtracts `f` times the (full) pivot-row constraint
  have hsplit :
      (∑ j ∈ Finset.range N, elimRow M col N row row j * xs.getD j 0) =
        (∑ j ∈ Finset.range N, M row j * xs.getD j 0) -
          M row col / M col col *
            (∑ j ∈ Finset.range N, M col j * xs.getD j 0) := by
    rw [Finset.mul_sum, ← Finset.sum_sub_distrib]
    refine Finset.sum_congr rfl ?_
    intro j hj
    have hjN : j < N := Finset.mem_range.mp hj
    by_cases hjc : col ≤ j
    · have he : elimRow M col N row row j =
          M row j - M row col / M col col * M col j := by
        simp only [elimRow]
        rw [if_pos ⟨trivial, hjc, hjN.le⟩]
      rw [he]
      ring
    · have he : elimRow M col N row row j = M row j := by
        simp only [elimRow]
        rw [if_neg (fun h => hjc h.2.1)]
      rw [he, hzero j (by omega)]
      ring
  have hlast : elimRow M col N row row N =
      M row N - M row col / M col col * M col N := by
    simp [elimRow, hcol.le]
  constructor
  · intro h i hi
    by_cases hir : i = row
    · subst hir
      have hR := h i hi
      rw [hsplit, hlast] at hR
      have hC := h col hcol
      rw [hrowcol N] at hC
      have hCsum : (∑ j ∈ Finset.range N, M col j * xs.getD j 0) = M col N := by
        rw [← hC]
        refine Finset.sum_congr rfl ?_
        intro j _
        rw [hrowcol j]
      rw [hCsum] at hR
      linarith
    · have hi' := h i hi
      simp only [hother i hir] at hi'
      exact hi'
  · intro h i hi
    by_cases hir : i = row
    · subst hir
      rw [hsplit, hlast, h i hi, h col hcol]
    · simp only [hother i hir]
      exact h i hi

/-- The below-pivot elimination loop preserves the solution set when all
worked rows are strictly between `col` and `N` and the pivot row is zero
left of the pivot. -/
theorem satA_foldl_elimRow {N col : ℕ} {M : ℕ → ℕ → ℚ} {xs : List ℚ}
    (l : List ℕ) (hl : ∀ row ∈ l, col < row ∧ row < N) (hcol : col < N)
    (hzero : ∀ j < col, M col j = 0) :
    satA N (l.foldl (fun M row => elimRow M col N row) M) xs ↔ satA N M xs := by
  induction l generalizing M with
  | nil => simp
  | cons a t ih =>
      rw [List.foldl_cons]
      have ha := hl a (List.mem_cons_self a t)
      have hzero' : ∀ j < col, elimRow M col N a col j = 0 := by
        intro j hj
        have he : elimRow M col N a col j = M col j := by
          simp only [elimRow]
          rw [if_neg (fun h => (by omega : ¬ col = a) h.1)]
        rw [he]
        exact hzero j hj
      rw [ih (fun row hr => hl row (List.mem_cons_of_mem a hr)) hzero']
      exact satA_elimRow ha.2 hcol (by omega) hzero

/-- The partial triangularization invariant: every already-processed column
`j < col` has a nonzero diagonal entry and zeros strictly below it. -/
def TriPart (N col : ℕ) (M : ℕ → ℕ → ℚ) : Prop :=
  ∀ j < col, M j j ≠ 0 ∧ ∀ i, j < i → i < N → M i j = 0

/-- Master invariant of the elimination loop: a successful run produces a
fully triangularized matrix (nonzero diagonal, zeros below) whose solutions
are solutions of the input system. -/
theorem elimGo_spec {N : ℕ} :
    ∀ (fuel col : ℕ) (M U : ℕ → ℕ → ℚ), col + fuel = N → TriPart N col M →
      elimGo N fuel col M = some U →
      TriPart N N U ∧ ∀ xs, satA N U xs → satA N M xs := by
  intro fuel
  induction fuel with
  | zero =>
      intro col M U hcol hT h
      obtain rfl : M = U := by simpa [elimGo] using h
      exact ⟨by rw [← hcol, Nat.add_zero] at hT ⊢; exact hT, fun xs h => h⟩
  | succ fuel ih =>
      intro col M U hcol hT h
      have hcolN : col < N := by omega
      simp only [elimGo] at h
      by_cases hpiv : |swapRows M col (findPivot M N col) col col| < 1/10^12
      · rw [if_pos hpiv] at h
        exact absurd h (by simp)
      · rw [if_neg hpiv] at h
        obtain ⟨hpc, hpN⟩ := findPivot_mem M hcolN
        have pivne : swapRows M col (findPivot M N col) col col ≠ 0 := by
          intro h0
          exact hpiv (by rw [h0]; norm_num)
        have hT1 : TriPart N col (swapRows M col (findPivot M N col)) := by
          intro j hj
          have hjc : j ≠ col := by omega
          have hjp : j ≠ findPivot M N col := by omega
          refine ⟨by simpa [swapRows, hjc, hjp] using (hT j hj).1, ?_⟩
          intro i hji hiN
          have h0c : M col j = 0 := (hT j hj).2 col (by omega) hcolN
          have h0p : M (findPivot M N col) j = 0 :=
            (hT j hj).2 (findPivot M N col) (by omega) hpN
          have h0i : M i j = 0 := (hT j hj).2 i hji hiN
          simp only [swapRows]
          split_ifs <;> assumption
        have hzero : ∀ j < col, swapRows M col (findPivot M N col) col j = 0 :=
          fun j hj => (hT1 j hj).2 col hj hcolN
        have hT2 : TriPart N (col+1)
            (elimBelow (swapRows M col (findPivot M N col)) col N) := by
          intro j hj
          rcases Nat.lt_or_ge j col with hjc | hjc
          · refine ⟨?_, ?_⟩
            · rw [elimBelow_apply]
              rw [if_neg (fun hh => by omega)]
              exact (hT1 j hjc).1
            · intro i hji hiN
              rw [elimBelow_apply]
              rw [if_neg (fun hh => by omega)]
              exact (hT1 j hjc).2 i hji hiN
          · have hjcol : j = col := by omega
            subst hjcol
            refine ⟨?_, ?_⟩
            · rw [elimBelow_apply]
              rw [if_neg (fun hh => by omega)]
              exact pivne
            · intro i hji hiN
              rw [elimBelow_apply]
              rw [if_pos ⟨hji, hiN, le_rfl, hcolN.le.trans (by omega)⟩]
              field_simp
        have hsat2 : ∀ xs,
            satA N (elimBelow (swapRows M col (findPivot M N col)) col N) xs ↔
              satA N (swapRows M col (findPivot M N col)) xs := by
          intro xs
          unfold elimBelow
          refine satA_foldl_elimRow _ ?_ hcolN hzero
          intro row hr
          have := List.mem_range'_1.mp hr
          omega
        obtain ⟨hTU, htrans⟩ := ih (col+1)
          (elimBelow (swapRows M col (findPivot M N col)) col N) U
          (by omega) hT2 h
        refine ⟨hTU, fun xs hxs => ?_⟩
        exact (satA_swap hcolN hpN).mp ((hsat2 xs).mp (htrans xs hxs))

/-- The back-substitution list has one entry per remaining row. -/
theorem backGo_length (M : ℕ → ℕ → ℚ) (N : ℕ) :
    ∀ fuel i, (backGo M N fuel i).length = fuel := by
  intro fuel
  induction fuel with
  | zero => intro i; rfl
  | succ fuel ih => intro i; simp [backGo, ih]

/-- Back substitution solves every remaining row of a triangularized
system. -/
theorem backGo_sat {N : ℕ} {U : ℕ → ℕ → ℚ} (hT : TriPart N N U) :
    ∀ fuel i, i + fuel = N → ∀ r, i ≤ r → r < N →
      rowDot (U r) i (backGo U N fuel i) = U r N := by
  intro fuel
  induction fuel with
  | zero => intro i hi r h1 h2; omega
  | succ fuel ih =>
      intro i hi r h1 h2
      have hiN : i < N := by omega
      rcases Nat.eq_or_lt_of_le h1 with hr | hr
      · subst hr
        simp only [backGo, rowDot]
        have hne := (hT i hiN).1
        field_simp
      · simp only [backGo, rowDot]
        rw [(hT i hiN).2 r hr h2]
        rw [ih (i+1) (by omega) r (by omega) h2]
        ring

/-- `rowDot` as a finite sum over the entries of the list. -/
theorem rowDot_eq_sum (row : ℕ → ℚ) :
    ∀ (xs : List ℚ) (j : ℕ),
      rowDot row j xs = ∑ k ∈ Finset.range xs.length, row (j + k) * xs.getD k 0 := by
  intro xs
  induction xs with
  | nil => intro j; simp [rowDot]
  | cons a t ih =>
      intro j
      rw [show rowDot row j (a :: t) = row j * a + rowDot row (j+1) t from rfl]
      rw [ih (j+1)]
      rw [List.length_cons, Finset.sum_range_succ']
      simp only [List.getD_cons_succ, List.getD_cons_zero, Nat.add_zero]
      have : ∀ k, row (j + 1 + k) = row (j + (k + 1)) := by
        intro k; congr 1; omega
      simp only [this]
      ring

/-- A run of `solveLinearN` that returns a vector returns an exact solution
of the input system: six entries with `A·x = b` row by row. -/
theorem solveLinearN_correct {A : ℕ → ℕ → ℚ} {b : ℕ → ℚ} {xs : List ℚ}
    (h : solveLinearN A b 6 = some xs) :
    xs.length = 6 ∧
      ∀ i < 6, (∑ j ∈ Finset.range 6, A i j * xs.getD j 0) = b i := by
  unfold solveLinearN at h
  rcases hE : elimLoop 6 0 (fun i j => if j = 6 then b i else A i j) with _ | U
  · rw [hE] at h; exact absurd h (by simp)
  · rw [hE] at h
    obtain rfl : backSubstFrom U 6 0 = xs := by simpa using h
    have hfuel : elimGo 6 6 0 (fun i j => if j = 6 then b i else A i j) = some U := by
      simpa [elimLoop] using hE
    obtain ⟨hTU, htrans⟩ := elimGo_spec 6 0 _ U (by omega)
      (fun j hj => absurd hj (by omega)) hfuel
    have hlen : (backSubstFrom U 6 0).length = 6 := by
      simp [backSubstFrom, backGo_length]
    refine ⟨hlen, ?_⟩
    have hsatU : satA 6 U (backSubstFrom U 6 0) := by
      intro i hi
      have := backGo_sat hTU 6 0 (by omega) i (by omega) hi
      rw [rowDot_eq_sum] at this
      rw [show (backGo U 6 6 0).length = 6 from backGo_length U 6 6 0] at this
      simpa [backSubstFrom] using this
    have hsatM := htrans _ hsatU
    intro i hi
    have hrow := hsatM i hi
    have hL : (∑ j ∈ Finset.range 6,
        (fun i j => if j = 6 then b i else A i j) i j *
          (backSubstFrom U 6 0).getD j 0) =
        ∑ j ∈ Finset.range 6, A i j * (backSubstFrom U 6 0).getD j 0 := by
      refine Finset.sum_congr rfl ?_
      intro j hj
      have : j ≠ 6 := by have := Finset.mem_range.mp hj; omega
      simp [this]
    rw [hL] at hrow
    simpa using hrow

/-! ## Claim theorems -/

/-- Claim C4 (amended): beginning a recalibration does **not** preserve the
stored model and bias — `handleRecalibrate` resets the `CalibrationModel`
to `None`, the `BiasVector` to `{0,0}`, and discards the pair accumulator
together with the filter, previous-iris and buffer state, regardless of the
prior session state. -/
theorem handleRecalibrate_clears (s : SessionState) :
    handleRecalibrate s = ⟨none, ⟨0, 0⟩, false, none, [], [], false⟩ := rfl

/-- Claim C4, counterexample to the claim as stated: starting a
recalibration from a state holding a fitted model and a nonzero bias does
not leave them unchanged — both are wiped. -/
theorem handleRecalibrate_not_preserving :
    (handleRecalibrate ⟨some ⟨[1,0,0,0,0,0], [0,1,0,0,0,0]⟩, ⟨3, 4⟩, false,
        none, [], [], true⟩).calib ≠ some ⟨[1,0,0,0,0,0], [0,1,0,0,0,0]⟩ ∧
    (handleRecalibrate ⟨some ⟨[1,0,0,0,0,0], [0,1,0,0,0,0]⟩, ⟨3, 4⟩, false,
        none, [], [], true⟩).bias ≠ ⟨3, 4⟩ := by
  refine ⟨by simp [handleRecalibrate], ?_⟩
  simp only [handleRecalibrate, ne_eq, Pt.mk.injEq]
  intro h
  exact absurd h.1.symm (by norm_num)

/-- Claim C1 (amended): `fitCalibration` reports nothing to its caller —
the JavaScript function returns `undefined` on every path — so the only
observable outcome is the stored model, and **any** two failing
invocations (insufficient data or a singular system, in any combination)
started from the same stored model end in identical states: the two
failure kinds are indistinguishable. -/
theorem fitCalibration_failures_indistinguishable
    (prev : Option CalibModel) (pairs1 pairs2 : List CalibPair)
    (h1 : FitFails pairs1) (h2 : FitFails pairs2) :
    fitCalibration pairs1 prev = fitCalibration pairs2 prev ∧
    fitCalibration pairs1 prev = prev := by
  rw [fitCalibration_of_fails h1, fitCalibration_of_fails h2]
  exact ⟨rfl, rfl⟩

/-- Claim C5: the solver performs Gaussian elimination with partial
pivoting — the pivot search at each column selects a row in the active
range whose absolute entry is maximal — a pivot magnitude below `1e-12`
after pivoting makes the solver return failure (`none`), and any returned
vector is an exact solution of the 6×6 system over exact arithmetic. -/
theorem solveLinearN_partial_pivoting_correct :
    (∀ (M : ℕ → ℕ → ℚ) (col r : ℕ), col < 6 → col ≤ r → r < 6 →
      col ≤ findPivot M 6 col ∧ findPivot M 6 col < 6 ∧
        |M r col| ≤ |M (findPivot M 6 col) col|) ∧
    (∀ (M : ℕ → ℕ → ℚ) (fuel col : ℕ),
      |swapRows M col (findPivot M 6 col) col col| < 1/10^12 →
      elimGo 6 (fuel+1) col M = none) ∧
    ∀ (A : ℕ → ℕ → ℚ) (b : ℕ → ℚ) (xs : List ℚ),
      solveLinearN A b 6 = some xs →
      xs.length = 6 ∧
        ∀ i < 6, (∑ j ∈ Finset.range 6, A i j * xs.getD j 0) = b i := by
  refine ⟨?_, ?_, ?_⟩
  · intro M col r h1 h2 h3
    obtain ⟨ha, hb⟩ := findPivot_mem M h1
    exact ⟨ha, hb, findPivot_max M 6 col h2 h3⟩
  · intro M fuel col h
    exact elimGo_succ_none h
  · intro A b xs h
    exact solveLinearN_correct h

/-- Claim C6: fewer than 7 pairs, or a singular per-axis solve, leaves the
stored model exactly as it was (previous model or `None`); only an
invocation in which both per-axis solves succeed replaces the model,
wholesale, with the freshly fitted weight pair. -/
theorem fitCalibration_model_update (pairs : List CalibPair)
    (prev : Option CalibModel) :
    (FitFails pairs → fitCalibration pairs prev = prev) ∧
    ∀ wx wy, ¬ pairs.length < 7 →
      solveLinearN (AtA pairs) (Atbx pairs) 6 = some wx →
      solveLinearN (AtA pairs) (Atby pairs) 6 = some wy →
      fitCalibration pairs prev = some ⟨wx, wy⟩ := by
  refine ⟨fun h => fitCalibration_of_fails h, ?_⟩
  intro wx wy hlen hx hy
  unfold fitCalibration
  rw [if_neg hlen, hx, hy]

/-! ## Concrete calibration runs

`goodPairs` is a 7-pair data set with nondegenerate geometry (both
normal-equations systems solve); `degenPairs` keeps all iris samples at one
point (singular system); `sixPairs` has too few pairs. The elimination on
`goodPairs` is evaluated stage by stage through the literal matrices
`gM0 … gM4` (the last two columns eliminate nothing, so stages 4, 5 and 6
coincide). -/

/-- Seven calibration pairs with screen target `(ix+iy, ix+iy)`. -/
def goodPairs : List CalibPair :=
  [⟨⟨0,0⟩,⟨0,0⟩⟩, ⟨⟨1,0⟩,⟨1,1⟩⟩, ⟨⟨-1,0⟩,⟨-1,-1⟩⟩, ⟨⟨0,1⟩,⟨1,1⟩⟩,
   ⟨⟨0,-1⟩,⟨-1,-1⟩⟩, ⟨⟨1,1⟩,⟨2,2⟩⟩, ⟨⟨-1,-1⟩,⟨-2,-2⟩⟩]

/-- Seven pairs that all share one iris sample: degenerate geometry. -/
def degenPairs : List CalibPair :=
  [⟨⟨0,0⟩,⟨5,5⟩⟩, ⟨⟨0,0⟩,⟨5,5⟩⟩, ⟨⟨0,0⟩,⟨5,5⟩⟩, ⟨⟨0,0⟩,⟨5,5⟩⟩,
   ⟨⟨0,0⟩,⟨5,5⟩⟩, ⟨⟨0,0⟩,⟨5,5⟩⟩, ⟨⟨0,0⟩,⟨5,5⟩⟩]

/-- Six pairs: one short of the minimum the fitter requires. -/
def sixPairs : List CalibPair :=
  [⟨⟨0,0⟩,⟨0,0⟩⟩, ⟨⟨1,0⟩,⟨1,1⟩⟩, ⟨⟨-1,0⟩,⟨-1,-1⟩⟩, ⟨⟨0,1⟩,⟨1,1⟩⟩,
   ⟨⟨0,-1⟩,⟨-1,-1⟩⟩, ⟨⟨1,1⟩,⟨2,2⟩⟩]

/-- Feature rows have six entries, so indices past 5 read the default. -/
theorem phi_getD_big {ix iy : ℚ} {r : ℕ} (h : 6 ≤ r) :
    (phi ix iy).getD r 0 = 0 :=
  List.getD_eq_default _ _ (by simpa [phi] using h)

/-- `AᵗA` vanishes outside the 6×6 block (row out of range). -/
theorem AtA_big_row {pairs : List CalibPair} {r : ℕ} (h : 6 ≤ r) (c : ℕ) :
    AtA pairs r c = 0 := by
  unfold AtA
  rw [show (fun p : CalibPair => (phi p.iris.x p.iris.y).getD r 0 *
      (phi p.iris.x p.iris.y).getD c 0) = fun _ => 0 from
    funext fun p => by rw [phi_getD_big h, zero_mul]]
  simp

/-- `AᵗA` vanishes outside the 6×6 block (column out of range). -/
theorem AtA_big_col {pairs : List CalibPair} (r : ℕ) {c : ℕ} (h : 6 ≤ c) :
    AtA pairs r c = 0 := by
  unfold AtA
  rw [show (fun p : CalibPair => (phi p.iris.x p.iris.y).getD r 0 *
      (phi p.iris.x p.iris.y).getD c 0) = fun _ => 0 from
    funext fun p => by rw [phi_getD_big h, mul_zero]]
  simp

/-- `Aᵗb_x` vanishes past index 5. -/
theorem Atbx_big {pairs : List CalibPair} {r : ℕ} (h : 6 ≤ r) :
    Atbx pairs r = 0 := by
  unfold Atbx
  rw [show (fun p : CalibPair => (phi p.iris.x p.iris.y).getD r 0 *
      p.screen.x) = fun _ => 0 from
    funext fun p => by rw [phi_getD_big h, zero_mul]]
  simp

/-- On `goodPairs` both screen axes carry the same targets, so the two
right-hand sides coincide. -/
theorem Atby_eq_Atbx : Atby goodPairs = Atbx goodPairs := by
  funext r
  by_cases hr : r < 6
  · interval_cases r <;> norm_num [Atbx, Atby, goodPairs, phi]
  · rw [Atbx_big (by omega)]
    unfold Atby
    rw [show (fun p : CalibPair => (phi p.iris.x p.iris.y).getD r 0 *
        p.screen.y) = fun _ => 0 from
      funext fun p => by rw [phi_getD_big (by omega : 6 ≤ r), zero_mul]]
    simp

/-- Swapping a row with itself changes nothing. -/
theorem swapRows_self (M : ℕ → ℕ → ℚ) (a : ℕ) : swapRows M a a = M := by
  funext r k
  simp only [swapRows]
  split_ifs with h <;> simp_all

/-- Augmented matrix of the C6 witness system (normal equations of the pairs). -/
def gM0rows : List (List ℚ) :=
  [[4, 2, 2, 0, 0, 4, 0],
   [2, 4, 2, 0, 0, 4, 0],
   [2, 2, 2, 0, 0, 2, 0],
   [0, 0, 0, 4, 2, 0, 6],
   [0, 0, 0, 2, 4, 0, 6],
   [4, 4, 2, 0, 0, 7, 0]]

/-- Function view of `gM0rows` (zero outside the stored block). -/
def gM0 : ℕ → ℕ → ℚ := fun i j => ((gM0rows.getD i []).getD j 0)

/-- Entries of `gM0` outside the active 6×7 block are zero. -/
theorem gM0_junk {i j : ℕ} (h : 6 ≤ i ∨ 7 ≤ j) : gM0 i j = 0 := by
  unfold gM0
  rcases h with h | h
  · rw [show gM0rows.getD i [] = [] from
      List.getD_eq_default _ _ (by simp [gM0rows]; omega)]
    rfl
  · by_cases hi : i < 6
    · refine List.getD_eq_default _ _ ?_
      interval_cases i <;> simp [gM0rows] <;> omega
    · rw [show gM0rows.getD i [] = [] from
        List.getD_eq_default _ _ (by simp [gM0rows]; omega)]
      rfl

/-- Witness system matrix after eliminating the first 1 column. -/
def gM1rows : List (List ℚ) :=
  [[4, 2, 2, 0, 0, 4, 0],
   [0, 3, 1, 0, 0, 2, 0],
   [0, 1, 1, 0, 0, 0, 0],
   [0, 0, 0, 4, 2, 0, 6],
   [0, 0, 0, 2, 4, 0, 6],
   [0, 2, 0, 0, 0, 3, 0]]

/-- Function view of `gM1rows` (zero outside the stored block). -/
def gM1 : ℕ → ℕ → ℚ := fun i j => ((gM1rows.getD i []).getD j 0)

/-- Entries of `gM1` outside the active 6×7 block are zero. -/
theorem gM1_junk {i j : ℕ} (h : 6 ≤ i ∨ 7 ≤ j) : gM1 i j = 0 := by
  unfold gM1
  rcases h with h | h
  · rw [show gM1rows.getD i [] = [] from
      List.getD_eq_default _ _ (by simp [gM1rows]; omega)]
    rfl
  · by_cases hi : i < 6
    · refine List.getD_eq_default _ _ ?_
      interval_cases i <;> simp [gM1rows] <;> omega
    · rw [show gM1rows.getD i [] = [] from
        List.getD_eq_default _ _ (by simp [gM1rows]; omega)]
      rfl

/-- Witness system matrix after eliminating the first 2 columns. -/
def gM2rows : List (List ℚ) :=
  [[4, 2, 2, 0, 0, 4, 0],
   [0, 3, 1, 0, 0, 2, 0],
   [0, 0, 2/3, 0, 0, -2/3, 0],
   [0, 0, 0, 4, 2, 0, 6],
   [0, 0, 0, 2, 4, 0, 6],
   [0, 0, -2/3, 0, 0, 5/3, 0]]

/-- Function view of `gM2rows` (zero outside the stored block). -/
def gM2 : ℕ → ℕ → ℚ := fun i j => ((gM2rows.getD i []).getD j 0)

/-- Entries of `gM2` outside the active 6×7 block are zero. -/
theorem gM2_junk {i j : ℕ} (h : 6 ≤ i ∨ 7 ≤ j) : gM2 i j = 0 := by
  unfold gM2
  rcases h with h | h
  · rw [show gM2rows.getD i [] = [] from
      List.getD_eq_default _ _ (by simp [gM2rows]; omega)]
    rfl
  · by_cases hi : i < 6
    · refine List.getD_eq_default _ _ ?_
      interval_cases i <;> simp [gM2rows] <;> omega
    · rw [show gM2rows.getD i [] = [] from
        List.getD_eq_default _ _ (by simp [gM2rows]; omega)]
      rfl

/-- Witness system matrix after eliminating the first 3 columns. -/
def gM3rows : List (List ℚ) :=
  [[4, 2, 2, 0, 0, 4, 0],
   [0, 3, 1, 0, 0, 2, 0],
   [0, 0, 2/3, 0, 0, -2/3, 0],
   [0, 0, 0, 4, 2, 0, 6],
   [0, 0, 0, 2, 4, 0, 6],
   [0, 0, 0, 0, 0, 1, 0]]

/-- Function view of `gM3rows` (zero outside the stored block). -/
def gM3 : ℕ → ℕ → ℚ := fun i j => ((gM3rows.getD i []).getD j 0)

/-- Entries of `gM3` outside the active 6×7 block are zero. -/
theorem gM3_junk {i j : ℕ} (h : 6 ≤ i ∨ 7 ≤ j) : gM3 i j = 0 := by
  unfold gM3
  rcases h with h | h
  · rw [show gM3rows.getD i [] = [] from
      List.getD_eq_default _ _ (by simp [gM3rows]; omega)]
    rfl
  · by_cases hi : i < 6
    · refine List.getD_eq_default _ _ ?_
      interval_cases i <;> simp [gM3rows] <;> omega
    · rw [show gM3rows.getD i [] = [] from
        List.getD_eq_default _ _ (by simp [gM3rows]; omega)]
      rfl

/-- Witness system matrix after eliminating the first 4 columns. -/
def gM4rows : List (List ℚ) :=
  [[4, 2, 2, 0, 0, 4, 0],
   [0, 3, 1, 0, 0, 2, 0],
   [0, 0, 2/3, 0, 0, -2/3, 0],
   [0, 0, 0, 4, 2, 0, 6],
   [0, 0, 0, 0, 3, 0, 3],
   [0, 0, 0, 0, 0, 1, 0]]

/-- Function view of `gM4rows` (zero outside the stored block). -/
def gM4 : ℕ → ℕ → ℚ := fun i j => ((gM4rows.getD i []).getD j 0)

/-- Entries of `gM4` outside the active 6×7 block are zero. -/
theorem gM4_junk {i j : ℕ} (h : 6 ≤ i ∨ 7 ≤ j) : gM4 i j = 0 := by
  unfold gM4
  rcases h with h | h
  · rw [show gM4rows.getD i [] = [] from
      List.getD_eq_default _ _ (by simp [gM4rows]; omega)]
    rfl
  · by_cases hi : i < 6
    · refine List.getD_eq_default _ _ ?_
      interval_cases i <;> simp [gM4rows] <;> omega
    · rw [show gM4rows.getD i [] = [] from
        List.getD_eq_default _ _ (by simp [gM4rows]; omega)]
      rfl

/-- The augmented matrix the solver builds for the witness system is
exactly the literal `gM0`. -/
theorem hgMstart :
    (fun i j => if j = 6 then Atbx goodPairs i else AtA goodPairs i j) = gM0 := by
  funext i j
  by_cases hi : i < 6
  · by_cases hj : j < 7
    · interval_cases i <;> interval_cases j <;>
        norm_num [AtA, Atbx, goodPairs, phi, gM0, gM0rows]
    · rw [gM0_junk (Or.inr (by omega)), if_neg (by omega),
        AtA_big_col _ (by omega)]
  · rw [gM0_junk (Or.inl (by omega))]
    by_cases hj : j = 6
    · rw [if_pos hj, Atbx_big (by omega)]
    · rw [if_neg hj, AtA_big_row (by omega)]

/-- Pivot search at column 0 of the witness elimination keeps row 0. -/
theorem hfp0 : findPivot gM0 6 0 = 0 := by
  norm_num [findPivot, List.range', gM0, gM0rows]

/-- Pivot search at column 1 of the witness elimination keeps row 1. -/
theorem hfp1 : findPivot gM1 6 1 = 1 := by
  norm_num [findPivot, List.range', gM1, gM1rows]

/-- Pivot search at column 2 of the witness elimination keeps row 2. -/
theorem hfp2 : findPivot gM2 6 2 = 2 := by
  have h1 : |(2:ℚ)/3| = 2/3 := by norm_num
  have h2 : |(-2:ℚ)/3| = 2/3 := by norm_num
  norm_num [findPivot, List.range', gM2, gM2rows, h1, h2]

/-- Pivot search at column 3 of the witness elimination keeps row 3. -/
theorem hfp3 : findPivot gM3 6 3 = 3 := by
  norm_num [findPivot, List.range', gM3, gM3rows]

/-- Pivot search at column 4 of the witness elimination keeps row 4. -/
theorem hfp4 : findPivot gM4 6 4 = 4 := by
  norm_num [findPivot, List.range', gM4, gM4rows]

/-- Pivot search at column 5 of the witness elimination keeps row 5. -/
theorem hfp5 : findPivot gM4 6 5 = 5 := by
  norm_num [findPivot, List.range', gM4, gM4rows]

/-- Column-0 elimination of the witness system. -/
theorem hstep0 : elimBelow gM0 0 6 = gM1 := by
  funext r k
  rw [elimBelow_apply]
  by_cases hr : r < 6
  · by_cases hk : k < 7
    · interval_cases r <;> interval_cases k <;>
        norm_num [gM0, gM1, gM0rows, gM1rows]
    · rw [if_neg (by omega), gM0_junk (Or.inr (by omega)),
        gM1_junk (Or.inr (by omega))]
  · rw [if_neg (by omega), gM0_junk (Or.inl (by omega)),
      gM1_junk (Or.inl (by omega))]

/-- Column-1 elimination of the witness system. -/
theorem hstep1 : elimBelow gM1 1 6 = gM2 := by
  funext r k
  rw [elimBelow_apply]
  by_cases hr : r < 6
  · by_cases hk : k < 7
    · interval_cases r <;> interval_cases k <;>
        norm_num [gM1, gM2, gM1rows, gM2rows]
    · rw [if_neg (by omega), gM1_junk (Or.inr (by omega)),
        gM2_junk (Or.inr (by omega))]
  · rw [if_neg (by omega), gM1_junk (Or.inl (by omega)),
      gM2_junk (Or.inl (by omega))]

/-- Column-2 elimination of the witness system. -/
theorem hstep2 : elimBelow gM2 2 6 = gM3 := by
  funext r k
  rw [elimBelow_apply]
  by_cases hr : r < 6
  · by_cases hk : k < 7
    · interval_cases r <;> interval_cases k <;>
        norm_num [gM2, gM3, gM2rows, gM3rows]
    · rw [if_neg (by omega), gM2_junk (Or.inr (by omega)),
        gM3_junk (Or.inr (by omega))]
  · rw [if_neg (by omega), gM2_junk (Or.inl (by omega)),
      gM3_junk (Or.inl (by omega))]

/-- Column-3 elimination of the witness system. -/
theorem hstep3 : elimBelow gM3 3 6 = gM4 := by
  funext r k
  rw [elimBelow_apply]
  by_cases hr : r < 6
  · by_cases hk : k < 7
    · interval_cases r <;> interval_cases k <;>
        norm_num [gM3, gM4, gM3rows, gM4rows]
    · rw [if_neg (by omega), gM3_junk (Or.inr (by omega)),
        gM4_junk (Or.inr (by omega))]
  · rw [if_neg (by omega), gM3_junk (Or.inl (by omega)),
      gM4_junk (Or.inl (by omega))]

/-- Column-4 elimination of the witness system. -/
theorem hstep4 : elimBelow gM4 4 6 = gM4 := by
  funext r k
  rw [elimBelow_apply]
  by_cases hr : r < 6
  · by_cases hk : k < 7
    · interval_cases r <;> interval_cases k <;>
        norm_num [gM4, gM4rows]
    · rw [if_neg (by omega)]
  · rw [if_neg (by omega)]

/-- Column-5 elimination of the witness system. -/
theorem hstep5 : elimBelow gM4 5 6 = gM4 := by
  funext r k
  rw [elimBelow_apply]
  by_cases hr : r < 6
  · by_cases hk : k < 7
    · interval_cases r <;> interval_cases k <;>
        norm_num [gM4, gM4rows]
    · rw [if_neg (by omega)]
  · rw [if_neg (by omega)]

/-- The full staged elimination run of the witness system. -/
theorem elimGo_goodPairs : elimGo 6 6 0 gM0 = some gM4 := by
  have e0 : elimGo 6 6 0 gM0 = elimGo 6 5 1 gM1 := by
    have h := @elimGo_succ_step 6 5 0 gM0
      (by rw [hfp0, swapRows_self]; norm_num [gM0, gM0rows])
    rw [hfp0, swapRows_self, hstep0] at h
    exact h
  have e1 : elimGo 6 5 1 gM1 = elimGo 6 4 2 gM2 := by
    have h := @elimGo_succ_step 6 4 1 gM1
      (by rw [hfp1, swapRows_self]; norm_num [gM1, gM1rows])
    rw [hfp1, swapRows_self, hstep1] at h
    exact h
  have e2 : elimGo 6 4 2 gM2 = elimGo 6 3 3 gM3 := by
    have h := @elimGo_succ_step 6 3 2 gM2
      (by
        rw [hfp2, swapRows_self]
        have h1 : |(2:ℚ)/3| = 2/3 := by norm_num
        norm_num [gM2, gM2rows, h1])
    rw [hfp2, swapRows_self, hstep2] at h
    exact h
  have e3 : elimGo 6 3 3 gM3 = elimGo 6 2 4 gM4 := by
    have h := @elimGo_succ_step 6 2 3 gM3
      (by rw [hfp3, swapRows_self]; norm_num [gM3, gM3rows])
    rw [hfp3, swapRows_self, hstep3] at h
    exact h
  have e4 : elimGo 6 2 4 gM4 = elimGo 6 1 5 gM4 := by
    have h := @elimGo_succ_step 6 1 4 gM4
      (by rw [hfp4, swapRows_self]; norm_num [gM4, gM4rows])
    rw [hfp4, swapRows_self, hstep4] at h
    exact h
  have e5 : elimGo 6 1 5 gM4 = elimGo 6 0 6 gM4 := by
    have h := @elimGo_succ_step 6 0 5 gM4
      (by rw [hfp5, swapRows_self]; norm_num [gM4, gM4rows])
    rw [hfp5, swapRows_self, hstep5] at h
    exact h
  rw [e0, e1, e2, e3, e4, e5]
  rfl

/-- The x-axis normal-equations solve on `goodPairs` succeeds with the
exact weight vector `[0,0,0,1,1,0]`. -/
theorem solve_goodPairs :
    solveLinearN (AtA goodPairs) (Atbx goodPairs) 6 = some [0, 0, 0, 1, 1, 0] := by
  show (match elimLoop 6 0
      (fun i j => if j = 6 then Atbx goodPairs i else AtA goodPairs i j) with
    | none => none
    | some M => some (backSubstFrom M 6 0)) = some [0, 0, 0, 1, 1, 0]
  rw [elimLoop, hgMstart, show (6:ℕ) - 0 = 6 from rfl, elimGo_goodPairs]
  norm_num [backSubstFrom, backGo, rowDot, gM4, gM4rows]

/-- The degenerate system is rejected at the very first pivot. -/
theorem solve_degen :
    solveLinearN (AtA degenPairs) (Atbx degenPairs) 6 = none := by
  show (match elimLoop 6 0
      (fun i j => if j = 6 then Atbx degenPairs i else AtA degenPairs i j) with
    | none => none
    | some M => some (backSubstFrom M 6 0)) = none
  rw [elimLoop, show (6:ℕ) - 0 = 5 + 1 from rfl, elimGo_succ_none]
  norm_num [findPivot, swapRows, AtA, Atbx, degenPairs, phi, List.range']


/-- Claim C5, witness: the identity system is solved exactly (`x = b`),
a concrete pivot search returns the maximal row, and a concrete sub-unit
pivot aborts the elimination. -/
theorem solveLinearN_partial_pivoting_correct_witness :
    ((([1, 2, 3, 4, 5, 6] : List ℚ).length = 6) ∧
      ∀ i < 6, (∑ j ∈ Finset.range 6,
        (fun i j => if i = j then (1:ℚ) else 0) i j *
          ([1, 2, 3, 4, 5, 6] : List ℚ).getD j 0) = (fun i => (i:ℚ)+1) i) ∧
    |(fun i _ => (i : ℚ)) 3 0| ≤
      |(fun i _ => (i : ℚ)) (findPivot (fun i _ => (i : ℚ)) 6 0) 0| ∧
    elimGo 6 1 0 (fun _ _ => (0:ℚ)) = none := by
  refine ⟨?_, ?_, ?_⟩
  · refine solveLinearN_partial_pivoting_correct.2.2
      (fun i j => if i = j then (1:ℚ) else 0) (fun i => (i:ℚ)+1)
      [1, 2, 3, 4, 5, 6] ?_
    norm_num [solveLinearN, elimLoop, elimGo, elimBelow, elimRow, swapRows,
      findPivot, backSubstFrom, backGo, rowDot, List.range']
  · exact (solveLinearN_partial_pivoting_correct.1 (fun i _ => (i : ℚ)) 0 3
      (by norm_num) (by norm_num) (by norm_num)).2.2
  · refine solveLinearN_partial_pivoting_correct.2.1 (fun _ _ => (0:ℚ)) 0 0 ?_
    norm_num [swapRows, findPivot, List.range']

/-- Claim C6, witness: a six-pair call leaves the previous model in place,
and the seven-pair `goodPairs` call replaces the model with the freshly
solved weights, both axes at once. -/
theorem fitCalibration_model_update_witness :
    fitCalibration sixPairs (some ⟨[9,9,9,9,9,9], [8,8,8,8,8,8]⟩) =
        some ⟨[9,9,9,9,9,9], [8,8,8,8,8,8]⟩ ∧
    fitCalibration goodPairs none =
        some ⟨[0, 0, 0, 1, 1, 0], [0, 0, 0, 1, 1, 0]⟩ := by
  constructor
  · exact (fitCalibration_model_update sixPairs _).1
      (Or.inl (by norm_num [sixPairs]))
  · exact (fitCalibration_model_update goodPairs none).2 _ _
      (by norm_num [goodPairs]) solve_goodPairs
      (by rw [Atby_eq_Atbx]; exact solve_goodPairs)

/-- Claim C1, counterexample to the claim as stated: an insufficient-data
invocation (six pairs) and a singular-system invocation (seven pairs of
degenerate geometry — not an insufficient-data case) have exactly the same
caller-observable outcome, starting from the same stored model: the
JavaScript function returns `undefined` in both cases and the stored model
ends identical, so the two failure kinds are conflated and neither is
reported distinctly. -/
theorem fitCalibration_conflation_cex :
    sixPairs.length < 7 ∧ ¬ degenPairs.length < 7 ∧
    solveLinearN (AtA degenPairs) (Atbx degenPairs) 6 = none ∧
    fitCalibration sixPairs none = fitCalibration degenPairs none := by
  refine ⟨by norm_num [sixPairs], by norm_num [degenPairs], solve_degen, ?_⟩
  rw [fitCalibration_of_fails (Or.inl (by norm_num [sixPairs])),
      fitCalibration_of_fails (Or.inr (Or.inl solve_degen))]

/-- Claim C1, witness for the amended claim at concrete failing inputs of
the two different kinds. -/
theorem fitCalibration_failures_indistinguishable_witness :
    fitCalibration sixPairs (some ⟨[1,1,1,1,1,1], [1,1,1,1,1,1]⟩) =
        fitCalibration degenPairs (some ⟨[1,1,1,1,1,1], [1,1,1,1,1,1]⟩) ∧
    fitCalibration sixPairs (some ⟨[1,1,1,1,1,1], [1,1,1,1,1,1]⟩) =
        some ⟨[1,1,1,1,1,1], [1,1,1,1,1,1]⟩ :=
  fitCalibration_failures_indistinguishable _ sixPairs degenPairs
    (Or.inl (by norm_num [sixPairs])) (Or.inr (Or.inl solve_degen))


/-- Characterization of the wall-time timeline buckets. -/
theorem timelineWall_get {pts : List GazePoint} {k : ℕ} {b : Bucket}
    (h : (timelineWall pts).get? k = some b) :
    b = ⟨(k : ℚ) * (1/2),
      min 100 (jround (((wallBucketCount pts k : ℚ) / (12 * (1/2))) * 100))⟩ := by
  rcases pts with _ | ⟨p, rest⟩
  · simp [timelineWall] at h
  · simp only [timelineWall, List.get?_map] at h
    rcases hk : (List.range (if 0 ≤ (rest.map GazePoint.wallTime).foldl max p.wallTime
        then (Int.floor ((rest.map GazePoint.wallTime).foldl max p.wallTime / (1/2))).toNat + 1
        else 0)).get? k with _ | m
    · rw [hk] at h; exact absurd h (by simp)
    · rw [hk] at h
      have hm : m = k := by
        have := List.get?_eq_some.mp hk
        obtain ⟨hlt, hget⟩ := this
        simpa using hget.symm
      subst hm
      simpa using h.symm

/-- Claim C2 (amended): every bucket of the wall-time timelines (the live
recording view and the report page) has intensity
`min(100, round(count / (12·0.5) · 100))` computed from that bucket's own
raw count alone, so no other bucket influences it; the playback-time
fallback `computeAttentionTimeline` does not satisfy this — it normalizes
by the maximum bucket count. -/
theorem timelineWall_intensity (pts : List GazePoint) (k : ℕ) (b : Bucket)
    (h : (timelineWall pts).get? k = some b) :
    b.time = (k : ℚ) * (1/2) ∧
    b.intensity =
      min 100 (jround (((wallBucketCount pts k : ℚ) / (12 * (1/2))) * 100)) ∧
    ∀ (pts2 : List GazePoint) (b2 : Bucket),
      (timelineWall pts2).get? k = some b2 →
      wallBucketCount pts2 k = wallBucketCount pts k →
      b2.intensity = b.intensity := by
  have hb := timelineWall_get h
  refine ⟨by rw [hb], by rw [hb], ?_⟩
  intro pts2 b2 h2 hcnt
  have hb2 := timelineWall_get h2
  rw [hb, hb2, hcnt]

/-- Claim C2, witness: a single recorded point at wall time 0 yields one
bucket whose intensity is the expected-rate value `round(1/6·100) = 17`. -/
theorem timelineWall_intensity_witness :
    Bucket.time ⟨0, 17⟩ = (0 : ℚ) * (1/2) ∧
    Bucket.intensity ⟨0, 17⟩ =
      min 100 (jround (((wallBucketCount [⟨0, 0, 0, 0, 0⟩] 0 : ℚ) /
        (12 * (1/2))) * 100)) := by
  have h : (timelineWall [⟨0, 0, 0, 0, 0⟩]).get? 0 = some ⟨0, 17⟩ := by
    norm_num [timelineWall, wallBucketCount, jround,
      List.range_succ, List.filter]
  exact ⟨(timelineWall_intensity _ 0 _ h).1,
    (timelineWall_intensity _ 0 _ h).2.1⟩

/-- Claim C2, counterexample to the claim as stated: under the
playback-time base (`computeAttentionTimeline`), two data sets whose
bucket-2 contents are identical get different bucket-2 intensities — the
normalization divides by the maximum bucket count, so the other buckets
leak in — and the produced intensity differs from the expected-rate
formula of the claim. -/
theorem computeAttentionTimeline_coupled_cex :
    (computeAttentionTimeline
        [⟨0,0,0,0,0⟩, ⟨0,0,0,0,0⟩, ⟨1,0,0,0,0⟩] 2 (1/2)).get? 2 =
      some ⟨1, 50⟩ ∧
    (computeAttentionTimeline
        [⟨0,0,0,0,0⟩, ⟨0,0,0,0,0⟩, ⟨0,0,0,0,0⟩, ⟨0,0,0,0,0⟩,
         ⟨1,0,0,0,0⟩] 2 (1/2)).get? 2 = some ⟨1, 25⟩ ∧
    ctBucketCount [⟨0,0,0,0,0⟩, ⟨0,0,0,0,0⟩, ⟨1,0,0,0,0⟩] (1/2) 2 =
      ctBucketCount [⟨0,0,0,0,0⟩, ⟨0,0,0,0,0⟩, ⟨0,0,0,0,0⟩, ⟨0,0,0,0,0⟩,
        ⟨1,0,0,0,0⟩] (1/2) 2 ∧
    (50 : ℤ) ≠ min 100 (jround (((1 : ℚ) / (12 * (1/2))) * 100)) := by
  have ht : (4 : ℤ).toNat = 4 := rfl
  refine ⟨?_, ?_, ?_, ?_⟩ <;>
    norm_num [computeAttentionTimeline, ctBucketCount, jround,
      List.range_succ, List.filter, ht]


/-- There are five verification dots. -/
theorem VERIFY_DOTS_length : VERIFY_DOTS.length = 5 := rfl

/-- A click that is not the last only advances the step and records the
residual; the bias is untouched. -/
theorem handleVerifyClick_mid {cr : Rect} {calib : Option CalibModel}
    {buf : List Pt} {s : VerifyState} (h : s.step + 1 < 5) :
    handleVerifyClick cr calib buf s =
      ⟨s.step + 1, recordResidual cr calib buf s, s.bias⟩ := by
  unfold handleVerifyClick
  rw [VERIFY_DOTS_length, if_neg (by omega)]

/-- The final (fifth) click sets the bias to the mean residual when any
residual was recorded, and keeps the old bias otherwise. -/
theorem handleVerifyClick_last {cr : Rect} {calib : Option CalibModel}
    {buf : List Pt} {s : VerifyState} (h : s.step + 1 = 5) :
    handleVerifyClick cr calib buf s =
      if recordResidual cr calib buf s = [] then
        ⟨s.step + 1, recordResidual cr calib buf s, s.bias⟩
      else
        ⟨s.step + 1, recordResidual cr calib buf s,
          ⟨((recordResidual cr calib buf s).map Pt.x).sum /
             (recordResidual cr calib buf s).length,
           ((recordResidual cr calib buf s).map Pt.y).sum /
             (recordResidual cr calib buf s).length⟩⟩ := by
  unfold handleVerifyClick
  rw [VERIFY_DOTS_length, if_pos (by omega)]

/-- Folding the remaining clicks of a pass: the step reaches 5 and the
bias ends as the mean of the final residual list (or the entry bias when
that list is empty). -/
theorem verifyFold_spec (cr : Rect) (calib : Option CalibModel) :
    ∀ (bufs : List (List Pt)) (s : VerifyState),
      s.step + bufs.length = 5 → bufs ≠ [] →
      (bufs.foldl (fun s buf => handleVerifyClick cr calib buf s) s).step = 5 ∧
      (bufs.foldl (fun s buf => handleVerifyClick cr calib buf s) s).bias =
        (if (bufs.foldl (fun s buf => handleVerifyClick cr calib buf s)
              s).residuals = [] then s.bias
         else
          ⟨(((bufs.foldl (fun s buf => handleVerifyClick cr calib buf s)
                s).residuals.map Pt.x).sum /
              (bufs.foldl (fun s buf => handleVerifyClick cr calib buf s)
                s).residuals.length),
           (((bufs.foldl (fun s buf => handleVerifyClick cr calib buf s)
                s).residuals.map Pt.y).sum /
              (bufs.foldl (fun s buf => handleVerifyClick cr calib buf s)
                s).residuals.length)⟩) := by
  intro bufs
  induction bufs with
  | nil => intro s _ hne; exact absurd rfl hne
  | cons buf t ih =>
      intro s hlen _
      rcases t with _ | ⟨buf2, t2⟩
      · -- the single remaining click is the last one
        have hstep : s.step + 1 = 5 := by simpa using hlen
        rw [List.foldl_cons, List.foldl_nil, handleVerifyClick_last hstep]
        by_cases hres : recordResidual cr calib buf s = []
        · rw [if_pos hres]
          simp [hres, hstep]
        · rw [if_neg hres]
          simp [hres, hstep]
      · -- a mid-pass click
        have hmid : s.step + 1 < 5 := by
          have := hlen
          simp only [List.length_cons] at this
          omega
        rw [List.foldl_cons, handleVerifyClick_mid hmid]
        exact ih _ (by simp only [List.length_cons] at hlen ⊢; omega)
          (by simp)

/-- Claim C3: after a full five-click verification pass the stored bias is
the arithmetic mean of the recorded residuals (`actualTarget − predicted`,
as accumulated by `recordResidual`); with zero recorded residuals the
previous bias value is kept. -/
theorem verifyPass_bias (cr : Rect) (calib : Option CalibModel)
    (bufs : List (List Pt)) (b0 : Pt) (h : bufs.length = 5) :
    (verifyPass cr calib bufs b0).step = 5 ∧
    (verifyPass cr calib bufs b0).bias =
      (if (verifyPass cr calib bufs b0).residuals = [] then b0
       else
        ⟨(((verifyPass cr calib bufs b0).residuals.map Pt.x).sum /
            (verifyPass cr calib bufs b0).residuals.length),
         (((verifyPass cr calib bufs b0).residuals.map Pt.y).sum /
            (verifyPass cr calib bufs b0).residuals.length)⟩) := by
  unfold verifyPass
  exact verifyFold_spec cr calib bufs ⟨0, [], b0⟩ (by simpa using h)
    (by intro hnil; rw [hnil] at h; simp at h)

/-- Calibration model used in the C3 witness: the identity mapping
(`x ↦ ix`, `y ↦ iy`). -/
def vCalib : Option CalibModel := some ⟨[0,0,0,1,0,0], [0,0,0,0,1,0]⟩

/-- Canvas rectangle used in the C3 witness. -/
def vCR : Rect := ⟨0, 0, 100, 100⟩

/-- Iris buffers of the C3 witness: at each click, two identical samples
sitting exactly 10px left and 5px below (in value) of the shown dot, so
every prediction is displaced by `(-10, -5)` from its target. -/
def vBufs : List (List Pt) :=
  [[⟨40, 45⟩, ⟨40, 45⟩], [⟨-2, 3⟩, ⟨-2, 3⟩], [⟨82, 3⟩, ⟨82, 3⟩],
   [⟨-2, 87⟩, ⟨-2, 87⟩], [⟨82, 87⟩, ⟨82, 87⟩]]

/-- Claim C3, witness: the spec scenario — every predicted point displaced
by exactly `(-10, -5)` from its true target over a five-dot pass starting
from bias `(0,0)` — produces `BiasVector = (10, 5)`, matching the mean of
the recorded residuals. -/
theorem verifyPass_bias_witness :
    (verifyPass vCR vCalib vBufs ⟨0, 0⟩).bias =
      (if (verifyPass vCR vCalib vBufs ⟨0, 0⟩).residuals = [] then (⟨0, 0⟩ : Pt)
       else
        ⟨(((verifyPass vCR vCalib vBufs ⟨0, 0⟩).residuals.map Pt.x).sum /
            (verifyPass vCR vCalib vBufs ⟨0, 0⟩).residuals.length),
         (((verifyPass vCR vCalib vBufs ⟨0, 0⟩).residuals.map Pt.y).sum /
            (verifyPass vCR vCalib vBufs ⟨0, 0⟩).residuals.length)⟩) ∧
    (verifyPass vCR vCalib vBufs ⟨0, 0⟩).residuals =
      [⟨10, 5⟩, ⟨10, 5⟩, ⟨10, 5⟩, ⟨10, 5⟩, ⟨10, 5⟩] ∧
    (verifyPass vCR vCalib vBufs ⟨0, 0⟩).bias = ⟨10, 5⟩ := by
  have hcons : ∀ (a : Pt) (l : List Pt), (a :: l = []) = False :=
    fun a l => eq_false (List.cons_ne_nil a l)
  have hres : (verifyPass vCR vCalib vBufs ⟨0, 0⟩).residuals =
      [⟨10, 5⟩, ⟨10, 5⟩, ⟨10, 5⟩, ⟨10, 5⟩, ⟨10, 5⟩] := by
    norm_num [verifyPass, handleVerifyClick, recordResidual, irisToScreen,
      dotL, phi, lastN, VERIFY_DOTS, vBufs, vCR, vCalib, hcons]
  refine ⟨(verifyPass_bias vCR vCalib vBufs ⟨0, 0⟩ (by norm_num [vBufs])).2,
    hres, ?_⟩
  rw [(verifyPass_bias vCR vCalib vBufs ⟨0, 0⟩ (by norm_num [vBufs])).2, hres]
  norm_num [hcons]


/-- Claim C7: with a stored previous sample, a new sample farther than 0.2
in normalized space (squared distance above 1/25) is not forwarded — the
iris buffer, the pair accumulator, the filter state, the cursor and the
recorded gaze points are all left untouched — but it replaces the stored
previous sample; a subsequent sample within 0.2 of the rejected one is
then accepted and processed by the downstream pipeline, in particular it
enters the iris buffer. -/
theorem outlierGuard_reject_then_accept (env env2 : TrackEnv) (s : TrackState)
    (i j p : Pt) (hprev : s.prevIris = some p) (hfar : 1/25 < dist2 i p)
    (hnear : ¬ 1/25 < dist2 j i) :
    trackCallback env s i = { s with prevIris := some i } ∧
    trackCallback env2 { s with prevIris := some i } j =
      afterGuard env2 { s with prevIris := some j } j ∧
    (trackCallback env2 { s with prevIris := some i } j).irisBuffer =
      (if 20 < (s.irisBuffer ++ [j]).length then (s.irisBuffer ++ [j]).tail
       else s.irisBuffer ++ [j]) := by
  have h1 : trackCallback env s i = { s with prevIris := some i } := by
    unfold trackCallback
    rw [hprev]
    simp only [if_pos hfar]
  have h2 : trackCallback env2 { s with prevIris := some i } j =
      afterGuard env2 { s with prevIris := some j } j := by
    unfold trackCallback
    simp only [if_neg hnear]
  refine ⟨h1, h2, ?_⟩
  rw [h2]
  unfold afterGuard
  rcases hscr : irisToScreen s.calib s.bias j.x j.y with _ | sp <;>
    rcases hrect : env2.canvasRect with _ | rect <;>
      simp [hscr, hrect]

/-- Claim C8: the adaptive one-euro filter obeys the claimed equations. On
its first sample the output is the raw input and the stored velocity is 0;
on every further sample, with `dt` the elapsed time floored at `1e-4`, the
per-axis velocity is `αd·((raw − prevOutput)/dt) + (1 − αd)·prevVelocity`
with `αd = 1/(1 + 1/(2π·dFc·dt))` and `dFc = 1`; the cutoff is
`minFc + β·speed` (`minFc = 0.5`, `β = 0.08`) with `speed` the Euclidean
norm of the two filtered velocities; and the per-axis output is
`α·raw + (1 − α)·prevOutput` with `α = 1/(1 + 1/(2π·fc·dt))` (`π` being
the double value `Math.PI`). -/
theorem oneEuro_step_spec (p : OneEuroState) (rawCx rawCy nowS : ℝ) :
    oneEuroApply none rawCx rawCy nowS =
      ((rawCx, rawCy), ⟨rawCx, 0, rawCy, 0, nowS⟩) ∧
    (let dt := max (nowS - p.t) (1/10000)
     let ad := 1 / (1 + 1 / (2 * mathPI * 1 * dt))
     let dx := ad * ((rawCx - p.x) / dt) + (1 - ad) * p.dx
     let dy := ad * ((rawCy - p.y) / dt) + (1 - ad) * p.dy
     let fc := 1/2 + 8/100 * Real.sqrt (dx * dx + dy * dy)
     let a := 1 / (1 + 1 / (2 * mathPI * fc * dt))
     oneEuroApply (some p) rawCx rawCy nowS =
       ((a * rawCx + (1 - a) * p.x, a * rawCy + (1 - a) * p.y),
        ⟨a * rawCx + (1 - a) * p.x, dx, a * rawCy + (1 - a) * p.y, dy,
          nowS⟩)) :=
  ⟨rfl, rfl⟩


/-- Environment used in the C7 witness: no calibration animation, no
rects, time zero. -/
noncomputable def wEnv : TrackEnv := ⟨false, none, ⟨0, 0⟩, none, 0, 0, 0⟩

/-- Tracking state used in the C7 witness: previous sample at the origin,
empty buffers, no model. -/
noncomputable def wState : TrackState :=
  ⟨some ⟨0, 0⟩, [], [], none, ⟨0, 0⟩, none, none, []⟩

/-- Claim C7, witness: the jump from `(0,0)` to `(1,1)` is rejected but
remembered, and the follow-up sample `(1.1, 1)` (within 0.2 of the
rejected one) is accepted and lands in the iris buffer. -/
theorem outlierGuard_reject_then_accept_witness :
    trackCallback wEnv wState ⟨1, 1⟩ = { wState with prevIris := some ⟨1, 1⟩ } ∧
    (trackCallback wEnv { wState with prevIris := some ⟨1, 1⟩ }
        ⟨11/10, 1⟩).irisBuffer = [⟨11/10, 1⟩] := by
  have h := outlierGuard_reject_then_accept wEnv wEnv wState ⟨1, 1⟩
    ⟨11/10, 1⟩ ⟨0, 0⟩ rfl (by norm_num [dist2]) (by norm_num [dist2])
  refine ⟨h.1, ?_⟩
  rw [h.2.2]
  norm_num [wState]


/-- Characterization of the counting fold of `computeRegionAttention`:
each cell count is the number of in-window points mapping to that cell
index, and the total is the number of in-window points. -/
theorem regionCounts_aux (ct ws width height : ℚ) (g : ℕ) :
    ∀ (pts : List GazePoint) (acc : (ℤ → ℕ) × ℕ),
      (∀ z : ℤ, (pts.foldl (fun ct2 p =>
          if inWindow ct ws p then
            (Function.update ct2.1 (regionIdx width height g p)
              (ct2.1 (regionIdx width height g p) + 1), ct2.2 + 1)
          else ct2) acc).1 z =
        acc.1 z + (pts.filter (fun p => inWindow ct ws p &&
          decide (regionIdx width height g p = z))).length) ∧
      (pts.foldl (fun ct2 p =>
          if inWindow ct ws p then
            (Function.update ct2.1 (regionIdx width height g p)
              (ct2.1 (regionIdx width height g p) + 1), ct2.2 + 1)
          else ct2) acc).2 =
        acc.2 + (pts.filter (fun p => inWindow ct ws p)).length := by
  intro pts
  induction pts with
  | nil => intro acc; simp
  | cons p t ih =>
      intro acc
      rw [List.foldl_cons]
      by_cases hw : inWindow ct ws p
      · simp only [hw, ite_true]
        constructor
        · intro z
          rw [(ih _).1 z]
          dsimp only
          by_cases hz : regionIdx width height g p = z
          · subst hz
            rw [Function.update_same]
            have hfil : (List.filter (fun q => inWindow ct ws q &&
                decide (regionIdx width height g q =
                  regionIdx width height g p)) (p :: t)).length =
                (List.filter (fun q => inWindow ct ws q &&
                  decide (regionIdx width height g q =
                    regionIdx width height g p)) t).length + 1 := by
              rw [List.filter_cons]
              simp [hw]
            rw [hfil]
            omega
          · rw [Function.update_noteq (fun h => hz h.symm)]
            have hfil : (List.filter (fun q => inWindow ct ws q &&
                decide (regionIdx width height g q = z)) (p :: t)) =
                List.filter (fun q => inWindow ct ws q &&
                  decide (regionIdx width height g q = z)) t := by
              rw [List.filter_cons]
              simp [hw, hz]
            rw [hfil]
        · rw [(ih _).2, List.filter_cons]
          simp [hw]
          omega
      · simp only [hw, ite_false]
        constructor
        · intro z
          rw [(ih _).1 z, List.filter_cons]
          simp [hw]
        · rw [(ih _).2, List.filter_cons]
          simp [hw]

/-- The two components of `regionCounts`, in closed form. -/
theorem regionCounts_spec (pts : List GazePoint) (ct ws width height : ℚ)
    (g : ℕ) :
    (∀ z : ℤ, (regionCounts pts ct ws width height g).1 z =
      (pts.filter (fun p => inWindow ct ws p &&
        decide (regionIdx width height g p = z))).length) ∧
    (regionCounts pts ct ws width height g).2 =
      (pts.filter (fun p => inWindow ct ws p)).length := by
  have h := regionCounts_aux ct ws width height g pts (fun _ => 0, 0)
  exact ⟨fun z => by simpa using h.1 z, by simpa using h.2⟩

/-- A sum over the cast range is bumped by one by an update inside it. -/
theorem sum_update_range {f : ℤ → ℕ} {k : ℤ} {n : ℕ}
    (h0 : 0 ≤ k) (hn : k < (n : ℤ)) :
    (∑ i ∈ Finset.range n, Function.update f k (f k + 1) (i : ℤ)) =
      (∑ i ∈ Finset.range n, f (i : ℤ)) + 1 := by
  have hm : ((k.toNat : ℕ) : ℤ) = k := Int.toNat_of_nonneg h0
  have hmem : k.toNat ∈ Finset.range n := Finset.mem_range.mpr (by omega)
  rw [← Finset.sum_erase_add _ _ hmem]
  conv_rhs => rw [← Finset.sum_erase_add _ _ hmem]
  have hcongr : ∀ x ∈ (Finset.range n).erase k.toNat,
      Function.update f k (f k + 1) (x : ℤ) = f (x : ℤ) := by
    intro x hx
    refine Function.update_noteq ?_ _ _
    intro he
    exact (Finset.mem_erase.mp hx).1 (by omega)
  rw [Finset.sum_congr rfl hcongr, hm, Function.update_same]
  omega

/-- A point with nonnegative coordinates always lands in a cell of the
`g × g` grid. -/
theorem regionIdx_bounds {width height : ℚ} {g : ℕ} {p : GazePoint}
    (hw : 0 < width) (hh : 0 < height) (hg : 0 < g)
    (hx : 0 ≤ p.x) (hy : 0 ≤ p.y) :
    0 ≤ regionIdx width height g p ∧
      regionIdx width height g p < (g : ℤ) * g := by
  unfold regionIdx
  have hcw : (0:ℚ) < width / g := div_pos hw (by exact_mod_cast hg)
  have hch : (0:ℚ) < height / g := div_pos hh (by exact_mod_cast hg)
  have hgx0 : 0 ≤ Int.floor (p.x / (width / g)) :=
    Int.floor_nonneg.mpr (div_nonneg hx hcw.le)
  have hgy0 : 0 ≤ Int.floor (p.y / (height / g)) :=
    Int.floor_nonneg.mpr (div_nonneg hy hch.le)
  have hg1 : (1:ℤ) ≤ (g : ℤ) := by exact_mod_cast hg
  have h1 : 0 ≤ min ((g : ℤ) - 1) (Int.floor (p.x / (width / g))) :=
    le_min (by omega) hgx0
  have h2 : 0 ≤ min ((g : ℤ) - 1) (Int.floor (p.y / (height / g))) :=
    le_min (by omega) hgy0
  have hu1 : min ((g : ℤ) - 1) (Int.floor (p.x / (width / g))) ≤ (g : ℤ) - 1 :=
    min_le_left _ _
  have hu2 : min ((g : ℤ) - 1) (Int.floor (p.y / (height / g))) ≤ (g : ℤ) - 1 :=
    min_le_left _ _
  constructor
  · exact add_nonneg (mul_nonneg h2 (by omega)) h1
  · calc min ((g : ℤ) - 1) (Int.floor (p.y / (height / g))) * g +
        min ((g : ℤ) - 1) (Int.floor (p.x / (width / g))) ≤
        ((g : ℤ) - 1) * g + ((g : ℤ) - 1) :=
          add_le_add (mul_le_mul_of_nonneg_right hu2 (by omega)) hu1
      _ = (g : ℤ) * g - 1 := by ring
      _ < (g : ℤ) * g := by omega

/-- With nonnegative in-window coordinates the cell counts add up to the
window total. -/
theorem regionCounts_sum (pts : List GazePoint) (ct ws width height : ℚ)
    (g : ℕ) (hw : 0 < width) (hh : 0 < height) (hg : 0 < g)
    (hnn : ∀ p ∈ pts, inWindow ct ws p = true → 0 ≤ p.x ∧ 0 ≤ p.y) :
    (∑ i ∈ Finset.range (g * g),
      (regionCounts pts ct ws width height g).1 (i : ℤ)) =
      (regionCounts pts ct ws width height g).2 := by
  unfold regionCounts
  have main : ∀ (l : List GazePoint) (acc : (ℤ → ℕ) × ℕ),
      (∀ p ∈ l, inWindow ct ws p = true → 0 ≤ p.x ∧ 0 ≤ p.y) →
      (∑ i ∈ Finset.range (g * g), (l.foldl (fun ct2 p =>
          if inWindow ct ws p then
            (Function.update ct2.1 (regionIdx width height g p)
              (ct2.1 (regionIdx width height g p) + 1), ct2.2 + 1)
          else ct2) acc).1 (i : ℤ)) + acc.2 =
        (∑ i ∈ Finset.range (g * g), acc.1 (i : ℤ)) + (l.foldl (fun ct2 p =>
          if inWindow ct ws p then
            (Function.update ct2.1 (regionIdx width height g p)
              (ct2.1 (regionIdx width height g p) + 1), ct2.2 + 1)
          else ct2) acc).2 := by
    intro l
    induction l with
    | nil => intro acc _; rfl
    | cons p t ih =>
        intro acc hpre
        rw [List.foldl_cons]
        by_cases hw2 : inWindow ct ws p
        · simp only [hw2, ite_true]
          have hih := ih (Function.update acc.1 (regionIdx width height g p)
              (acc.1 (regionIdx width height g p) + 1), acc.2 + 1)
            (fun q hq => hpre q (List.mem_cons_of_mem p hq))
          obtain ⟨hx, hy⟩ := hpre p (List.mem_cons_self p t) hw2
          obtain ⟨hb0, hb1⟩ := regionIdx_bounds hw hh hg hx hy
          have hupd := sum_update_range (f := acc.1)
            (k := regionIdx width height g p) (n := g * g) hb0
            (by exact_mod_cast hb1)
          simp only at hih hupd ⊢
          omega
        · simp only [hw2, ite_false]
          exact ih acc (fun q hq => hpre q (List.mem_cons_of_mem p hq))
  have h := main pts (fun _ => 0, 0) hnn
  simpa using h


/-- Sum of a function mapped over `List.range`, as a `Finset` sum. -/
theorem list_range_map_sum (f : ℕ → ℚ) :
    ∀ n, ((List.range n).map f).sum = ∑ i ∈ Finset.range n, f i := by
  intro n
  induction n with
  | zero => simp
  | succ n ih =>
      rw [List.range_succ, List.map_append, List.sum_append,
        Finset.sum_range_succ, ih]
      simp

/-- Claim C9 (amended): each cell's attention is its in-window point count
divided by the window total, times 100; an empty window makes every cell
report 0 and no division occurs; and whenever at least one point lies in
the window and every in-window point has nonnegative coordinates — true of
all recorded gaze points — the attentions sum to exactly 100. (A window
point with a negative coordinate can be counted in the total yet fall
outside every cell, breaking the sum; hence the nonnegativity proviso.) -/
theorem computeRegionAttention_spec (pts : List GazePoint)
    (ct ws width height : ℚ) (g : ℕ)
    (hw : 0 < width) (hh : 0 < height) (hg : 0 < g)
    (hnn : ∀ p ∈ pts, inWindow ct ws p = true → 0 ≤ p.x ∧ 0 ≤ p.y) :
    (∀ i, i < g * g → (regionCells pts ct ws width height g).get? i =
       some ⟨(if 0 < (regionCounts pts ct ws width height g).2 then
               ((pts.filter (fun p => inWindow ct ws p &&
                  decide (regionIdx width height g p = (i : ℤ)))).length : ℚ) /
                 ((pts.filter (fun p => inWindow ct ws p)).length : ℚ) * 100
              else 0),
             i / g, i % g⟩) ∧
    ((regionCounts pts ct ws width height g).2 = 0 →
       ∀ r ∈ computeRegionAttention pts ct ws width height g,
         r.attention = 0) ∧
    ((∃ p ∈ pts, inWindow ct ws p = true) →
       ((computeRegionAttention pts ct ws width height g).map
          Region.attention).sum = 100) := by
  obtain ⟨hcnt, htot⟩ := regionCounts_spec pts ct ws width height g
  refine ⟨?_, ?_, ?_⟩
  · intro i hi
    unfold regionCells
    rw [List.get?_map, List.get?_range hi]
    dsimp only [Option.map]
    rw [hcnt, htot]
  · intro h0 r hr
    unfold computeRegionAttention at hr
    rw [List.mem_mergeSort] at hr
    unfold regionCells at hr
    obtain ⟨i, _, hri⟩ := List.mem_map.mp hr
    rw [← hri]
    simp [h0]
  · rintro ⟨p, hp, hwp⟩
    have htotpos : 0 < (regionCounts pts ct ws width height g).2 := by
      rw [htot]
      exact List.length_pos_of_mem (List.mem_filter.mpr ⟨hp, hwp⟩)
    have hperm : ((computeRegionAttention pts ct ws width height g).map
        Region.attention).sum =
        ((regionCells pts ct ws width height g).map Region.attention).sum := by
      unfold computeRegionAttention
      exact List.Perm.sum_eq ((List.mergeSort_perm _ _).map _)
    rw [hperm]
    unfold regionCells
    rw [List.map_map, list_range_map_sum]
    have hcongr : ∀ i ∈ Finset.range (g * g),
        (Region.attention ∘ fun i : ℕ =>
          (⟨if 0 < (regionCounts pts ct ws width height g).2 then
              ((regionCounts pts ct ws width height g).1 (i : ℤ) : ℚ) /
                ((regionCounts pts ct ws width height g).2 : ℚ) * 100
            else 0, i / g, i % g⟩ : Region)) i =
        ((regionCounts pts ct ws width height g).1 (i : ℤ) : ℚ) *
          (100 / ((regionCounts pts ct ws width height g).2 : ℚ)) := by
      intro i _
      simp only [Function.comp_apply, if_pos htotpos]
      ring
    rw [Finset.sum_congr rfl hcongr, ← Finset.sum_mul]
    have hsum : (∑ i ∈ Finset.range (g * g),
        ((regionCounts pts ct ws width height g).1 (i : ℤ) : ℚ)) =
        ((regionCounts pts ct ws width height g).2 : ℚ) := by
      rw [← Nat.cast_sum]
      exact_mod_cast congrArg (Nat.cast : ℕ → ℚ)
        (regionCounts_sum pts ct ws width height g hw hh hg hnn)
    rw [hsum]
    have hne : ((regionCounts pts ct ws width height g).2 : ℚ) ≠ 0 :=
      Nat.cast_ne_zero.mpr htotpos.ne'
    field_simp


/-- The index computed for the counterexample point `x = -1`: the cell is
`gy * 4 + gx = -1`, outside the grid. -/
theorem regionIdx_neg_pt : regionIdx 640 360 4 ⟨0, 0, -1, 0, 0⟩ = -1 := by
  unfold regionIdx
  have h1 : Int.floor ((-1 : ℚ) / (640 / (4 : ℕ))) = -1 := by
    rw [Int.floor_eq_iff] <;> norm_num
  have h2 : Int.floor ((0 : ℚ) / (360 / (4 : ℕ))) = 0 := by
    rw [Int.floor_eq_iff] <;> norm_num
  rw [h1, h2]
  norm_num

/-- Counterexample to the unamended C9: a gaze point inside the time window
whose x coordinate is negative is counted in the window total, but its cell
index is -1, which no grid cell reads back, so the sixteen attentions sum
to 0 rather than 100. -/
theorem regionAttention_negative_cex :
    inWindow 0 2 ⟨0, 0, -1, 0, 0⟩ = true ∧
    ((computeRegionAttention [⟨0, 0, -1, 0, 0⟩] 0 2 640 360 4).map
       Region.attention).sum = 0 := by
  have hwin : inWindow 0 2 ⟨0, 0, -1, 0, 0⟩ = true := by
    simp only [inWindow, Bool.and_eq_true, decide_eq_true_eq]
    norm_num
  refine ⟨hwin, ?_⟩
  have hperm : ((computeRegionAttention [⟨0, 0, -1, 0, 0⟩] 0 2 640 360 4).map
      Region.attention).sum =
      ((regionCells [⟨0, 0, -1, 0, 0⟩] 0 2 640 360 4).map
        Region.attention).sum :=
    List.Perm.sum_eq ((List.mergeSort_perm _ _).map _)
  rw [hperm]
  have hcounts : regionCounts [⟨0, 0, -1, 0, 0⟩] 0 2 640 360 4 =
      (Function.update (fun _ => 0) (-1) 1, 1) := by
    unfold regionCounts
    simp only [List.foldl]
    rw [if_pos hwin, regionIdx_neg_pt]
  unfold regionCells
  rw [hcounts]
  norm_num [List.range_succ, Function.update]

/-- The C9 theorem applied at one in-window gaze point with nonnegative
coordinates: the attentions sum to exactly 100. -/
theorem computeRegionAttention_spec_witness :
    ((computeRegionAttention [⟨0, 0, 10, 10, 0⟩] 0 2 640 360 4).map
       Region.attention).sum = 100 := by
  refine (computeRegionAttention_spec [⟨0, 0, 10, 10, 0⟩] 0 2 640 360 4
    (by norm_num) (by norm_num) (by norm_num) ?_).2.2 ?_
  · intro p hp _
    rw [List.mem_singleton.mp hp]
    norm_num
  · refine ⟨⟨0, 0, 10, 10, 0⟩, List.mem_singleton.mpr rfl, ?_⟩
    simp only [inWindow, Bool.and_eq_true, decide_eq_true_eq]
    norm_num


/-- A `foldl` step that preserves a predicate preserves it over the whole
list. -/
theorem foldl_preserve {α β : Type} (P : α → Prop) (f : α → β → α)
    (l : List β) (hf : ∀ a b, P a → P (f a b)) :
    ∀ a, P a → P (l.foldl f a) := by
  induction l with
  | nil => intro a ha; exact ha
  | cons b l ih => intro a ha; exact ih _ (hf a b ha)

/-- A nonnegative kernel splat keeps every grid cell nonnegative. -/
theorem splatPoint_nonneg (kernel : ℤ → ℚ) (w h : ℕ) (gx gy : ℤ)
    (grid : ℕ → ℚ) (hk : ∀ d, 0 ≤ kernel d) (hg : ∀ i, 0 ≤ grid i) :
    ∀ i, 0 ≤ splatPoint kernel w h gx gy grid i := by
  unfold splatPoint
  refine foldl_preserve (fun g : ℕ → ℚ => ∀ i, 0 ≤ g i) _ _ ?_ grid hg
  intro g dy hgnn
  refine foldl_preserve (fun g : ℕ → ℚ => ∀ i, 0 ≤ g i) _ _ ?_ g hgnn
  intro g dx hgnn2
  dsimp only
  split
  · intro i
    rcases eq_or_ne i ((gy + dy) * w + (gx + dx)).toNat with rfl | hne
    · rw [Function.update_same]
      exact add_nonneg (hgnn2 _) (hk _)
    · rw [Function.update_noteq hne]
      exact hgnn2 i
  · exact hgnn2

/-- With a nonnegative kernel, the accumulated heat grid is everywhere
nonnegative. -/
theorem heatAccum_nonneg (kernel : ℤ → ℚ) (pts : List GazePoint)
    (ct ws : ℚ) (res w h : ℕ) (hk : ∀ d, 0 ≤ kernel d) :
    ∀ i, 0 ≤ heatAccum kernel pts ct ws res w h i := by
  unfold heatAccum
  refine foldl_preserve (fun g : ℕ → ℚ => ∀ i, 0 ≤ g i) _ _ ?_ _ (fun _ => le_refl 0)
  intro g p hgnn
  dsimp only
  split
  · split
    · exact splatPoint_nonneg kernel w h _ _ g hk hgnn
    · exact hgnn
  · exact hgnn

/-- The running max of the grid scan never drops below its initial value. -/
theorem foldlMax_le_init (f : ℕ → ℚ) :
    ∀ (l : List ℕ) (a : ℚ),
      a ≤ l.foldl (fun m i => if m < f i then f i else m) a := by
  intro l
  induction l with
  | nil => intro a; exact le_refl a
  | cons b l ih =>
      intro a
      refine le_trans ?_ (ih _)
      dsimp only
      split
      · exact le_of_lt (by assumption)
      · exact le_refl a

/-- The max scan dominates every scanned cell. -/
theorem foldlMax_ge_mem (f : ℕ → ℚ) :
    ∀ (l : List ℕ) (a : ℚ) (i : ℕ), i ∈ l →
      f i ≤ l.foldl (fun m i => if m < f i then f i else m) a := by
  intro l
  induction l with
  | nil => intro a i hi; simp at hi
  | cons b l ih =>
      intro a i hi
      rcases List.mem_cons.mp hi with rfl | hi2
      · refine le_trans ?_ (foldlMax_le_init f l _)
        dsimp only
        split
        · exact le_refl (f i)
        · exact le_of_not_lt (by assumption)
      · exact ih _ i hi2

/-- Dividing every cell by a positive constant divides the max scan by
that constant. -/
theorem foldlMax_div (f : ℕ → ℚ) (c : ℚ) (hc : 0 < c) :
    ∀ (l : List ℕ) (a : ℚ),
      l.foldl (fun m i => if m < f i / c then f i / c else m) (a / c) =
      (l.foldl (fun m i => if m < f i then f i else m) a) / c := by
  intro l
  induction l with
  | nil => intro a; rfl
  | cons b l ih =>
      intro a
      rw [List.foldl_cons, List.foldl_cons]
      have hiff : a / c < f b / c ↔ a < f b := div_lt_div_iff_of_pos_right hc
      by_cases hab : a < f b
      · rw [if_pos (hiff.mpr hab), if_pos hab, ih]
      · rw [if_neg (fun hlt => hab (hiff.mp hlt)), if_neg hab, ih]

/-- `gridMax` is nonnegative (the scan starts at `0`). -/
theorem gridMax_nonneg (n : ℕ) (f : ℕ → ℚ) : 0 ≤ gridMax n f :=
  foldlMax_le_init f (List.range n) 0

/-- `gridMax` dominates every in-range cell. -/
theorem gridMax_ge (n : ℕ) (f : ℕ → ℚ) (i : ℕ) (hi : i < n) :
    f i ≤ gridMax n f :=
  foldlMax_ge_mem f (List.range n) 0 i (List.mem_range.mpr hi)

/-- A zero `gridMax` over a nonnegative grid forces every in-range cell to
be zero. -/
theorem gridMax_eq_zero (n : ℕ) (f : ℕ → ℚ) (hm : gridMax n f = 0)
    (hnn : ∀ i, 0 ≤ f i) : ∀ i, i < n → f i = 0 := by
  intro i hi
  exact le_antisymm (hm ▸ gridMax_ge n f i hi) (hnn i)

/-- Scaling every cell by `1/c` scales `gridMax` by `1/c`. -/
theorem gridMax_div (n : ℕ) (f : ℕ → ℚ) (c : ℚ) (hc : 0 < c) :
    gridMax n (fun i => f i / c) = gridMax n f / c := by
  unfold gridMax
  have h0 : (0 : ℚ) = 0 / c := (zero_div c).symm
  conv_lhs => rw [h0]
  exact foldlMax_div f c hc (List.range n) 0


/-- Claim C10: for `computeHeatmapForFrame` with its (positive) Gaussian
kernel, if after accumulating all window points some in-range grid cell is
nonzero, the grid is divided by its own maximum and the maximum cell value
of the returned grid is exactly 1; if the accumulated maximum is 0, the
returned grid is the accumulated grid itself — no division happens — and
every in-range cell is 0. -/
theorem computeHeatmapForFrame_spec (kernel : ℤ → ℚ) (pts : List GazePoint)
    (ct ws : ℚ) (width height res : ℕ) (hk : ∀ d, 0 ≤ kernel d) :
    ((∃ i, i < ((width + res - 1) / res) * ((height + res - 1) / res) ∧
        heatAccum kernel pts ct ws res ((width + res - 1) / res)
          ((height + res - 1) / res) i ≠ 0) →
      (computeHeatmapForFrame kernel pts ct ws width height res).grid =
        (fun i => heatAccum kernel pts ct ws res ((width + res - 1) / res)
            ((height + res - 1) / res) i /
          gridMax (((width + res - 1) / res) * ((height + res - 1) / res))
            (heatAccum kernel pts ct ws res ((width + res - 1) / res)
              ((height + res - 1) / res))) ∧
      gridMax (((width + res - 1) / res) * ((height + res - 1) / res))
        (computeHeatmapForFrame kernel pts ct ws width height res).grid =
          1) ∧
    (gridMax (((width + res - 1) / res) * ((height + res - 1) / res))
        (heatAccum kernel pts ct ws res ((width + res - 1) / res)
          ((height + res - 1) / res)) = 0 →
      (computeHeatmapForFrame kernel pts ct ws width height res).grid =
        heatAccum kernel pts ct ws res ((width + res - 1) / res)
          ((height + res - 1) / res) ∧
      ∀ i, i < ((width + res - 1) / res) * ((height + res - 1) / res) →
        heatAccum kernel pts ct ws res ((width + res - 1) / res)
          ((height + res - 1) / res) i = 0) := by
  set w := (width + res - 1) / res with hw
  set h := (height + res - 1) / res with hh
  set grid := heatAccum kernel pts ct ws res w h with hgrid
  set m := gridMax (w * h) grid with hm
  have hnn : ∀ i, 0 ≤ grid i := heatAccum_nonneg kernel pts ct ws res w h hk
  have hres : computeHeatmapForFrame kernel pts ct ws width height res =
      ⟨if 0 < m then fun i => grid i / m else grid, w, h⟩ := rfl
  constructor
  · rintro ⟨i, hilt, hine⟩
    have hpos : 0 < m :=
      lt_of_lt_of_le (lt_of_le_of_ne (hnn i) (Ne.symm hine))
        (gridMax_ge (w * h) grid i hilt)
    rw [hres]
    dsimp only
    rw [if_pos hpos]
    refine ⟨rfl, ?_⟩
    rw [gridMax_div (w * h) grid m hpos, ← hm]
    exact div_self (ne_of_gt hpos)
  · intro h0
    rw [hres]
    dsimp only
    rw [if_neg (by rw [h0]; exact lt_irrefl 0)]
    exact ⟨rfl, fun i hi => gridMax_eq_zero (w * h) grid h0 hnn i hi⟩

/-- Concrete accumulation for the C10 instance: one in-window point at the
origin on a 1x1 grid deposits exactly one kernel sample of weight 1. -/
theorem heatAccum_demo :
    heatAccum (fun _ => (1 : ℚ)) [⟨0, 0, 0, 0, 0⟩] 0 2 4 1 1 0 = 1 := by
  have hwin : inWindow 0 2 (⟨0, 0, 0, 0, 0⟩ : GazePoint) = true := by
    simp only [inWindow, Bool.and_eq_true, decide_eq_true_eq]
    norm_num
  have hfx : Int.floor ((0 : ℚ) / ((4 : ℕ) : ℚ)) = 0 := by norm_num
  unfold heatAccum
  simp only [List.foldl_cons, List.foldl_nil, hwin, if_true]
  norm_num [hfx, splatPoint, splatOffsets, List.range_succ, Function.update]

/-- The C10 theorem applied at a concrete kernel and point: the returned
grid of the nonempty window peaks at exactly 1. -/
theorem computeHeatmapForFrame_spec_witness :
    (∀ d : ℤ, 0 ≤ (fun _ : ℤ => (1 : ℚ)) d) ∧
    gridMax (((4 + 4 - 1) / 4) * ((4 + 4 - 1) / 4))
      (computeHeatmapForFrame (fun _ => (1 : ℚ)) [⟨0, 0, 0, 0, 0⟩]
        0 2 4 4 4).grid = 1 :=
  ⟨fun _ => by norm_num,
   ((computeHeatmapForFrame_spec (fun _ => (1 : ℚ)) [⟨0, 0, 0, 0, 0⟩]
      0 2 4 4 4 (fun _ => by norm_num)).1
      ⟨0, by norm_num, by rw [heatAccum_demo]; norm_num⟩).2⟩

end FocusFrame
